import Mathlib

/-!
Verification development for the DigitoolDB storage and indexing engine
(`src/common/models.py` and `src/common/indexing.py`).

The engine stores JSON-like documents (Python dicts loaded from JSON) in an
ordered list per collection, and maintains single-field secondary indices
mapping a normalized string key (`Index._get_indexable_value`) to a list of
document ids.  This file gives a shallow embedding of the value model, the
query evaluator, the update applier and the index maintenance code, and
proves or refutes the specification's claims about them.

Modelling conventions:
* Python/JSON values are the inductive `Value` below.  JSON floats are not
  modelled (the claims under study do not involve them); numbers are `Int`.
* Python `==` is `pyEq`.  It includes Python's cross-type numeric equality
  between booleans and integers (`True == 1`, `False == 0`), which is what
  makes index-key normalization and equality disagree.  Nested mappings are
  compared pointwise in key order; Python's order-insensitive dict equality
  coincides with this on key-canonical values.
* A stored document (a Python dict) is an ordered association list
  `Doc = List (String × Value)`; assignment keeps the position of an
  existing key and appends new keys, as CPython dicts do.
* Fresh UUIDs and timestamps are inputs (`genId`, `now`) of the operations.
* File persistence is identified with state: `Collection.docs` is the
  content of the `.digitool` file, `Collection.indices` the `IndexManager`
  with its `.idx` artifacts.
-/

set_option linter.unusedVariables false

mutual
/-- JSON-like Python values as stored by the engine. `VList` and `VDict` are the
nested list and dict spines (kept as separate inductives so that all
functions are structurally recursive and reduce definitionally). -/
inductive Value : Type where
  | null : Value
  | bool : Bool → Value
  | int : Int → Value
  | str : String → Value
  | list : VList → Value
  | dict : VDict → Value
  deriving DecidableEq

inductive VList : Type where
  | nil : VList
  | cons : Value → VList → VList
  deriving DecidableEq

inductive VDict : Type where
  | nil : VDict
  | cons : String → Value → VDict → VDict
  deriving DecidableEq
end

mutual
/-- Python `==` on the modelled values: structural on each type, plus
Python's numeric cross-type equality `True == 1`, `False == 0`. -/
def pyEq : Value → Value → Bool
  | .null, .null => true
  | .bool a, .bool b => a == b
  | .bool a, .int n => (if a then (1 : Int) else 0) == n
  | .int n, .bool a => n == (if a then (1 : Int) else 0)
  | .int m, .int n => m == n
  | .str s, .str t => s == t
  | .list a, .list b => pyEqL a b
  | .dict a, .dict b => pyEqD a b
  | _, _ => false

def pyEqL : VList → VList → Bool
  | .nil, .nil => true
  | .cons x xs, .cons y ys => pyEq x y && pyEqL xs ys
  | _, _ => false

def pyEqD : VDict → VDict → Bool
  | .nil, .nil => true
  | .cons k v xs, .cons l w ys => k == l && pyEq v w && pyEqD xs ys
  | _, _ => false
end

/-- Insert a key/value pair into a `VDict` sorted by key (helper for the
deterministic `sort_keys=True` serialization of nested mappings). -/
def vdInsert (k : String) (v : Value) : VDict → VDict
  | .nil => .cons k v .nil
  | .cons l w rest =>
      if k ≤ l then .cons k v (.cons l w rest)
      else .cons l w (vdInsert k v rest)

/-- Key-sort a `VDict` (insertion sort, ascending string order). -/
def vdSort : VDict → VDict
  | .nil => .nil
  | .cons k v rest => vdInsert k v (vdSort rest)

mutual
/-- Deep key-canonicalisation of a value: every nested mapping is key-sorted,
mirroring `json.dumps(value, sort_keys=True)` sorting at each nesting level. -/
def sortValue : Value → Value
  | .dict d => .dict (vdSort (sortFields d))
  | .list l => .list (sortElems l)
  | v => v

def sortFields : VDict → VDict
  | .nil => .nil
  | .cons k v rest => .cons k (sortValue v) (sortFields rest)

def sortElems : VList → VList
  | .nil => .nil
  | .cons v rest => .cons (sortValue v) (sortElems rest)
end

/-- JSON string escaping for the serializer (the escapes relevant to the
modelled value space; `json.dumps` additionally \u-escapes other control
characters, which no claim exercises). -/
def jsonEscapeChar (c : Char) : String :=
  if c = '"' then "\\\""
  else if c = '\\' then "\\\\"
  else if c = '\n' then "\\n"
  else if c = '\t' then "\\t"
  else if c = '\r' then "\\r"
  else String.singleton c

def jsonEscape (s : String) : String :=
  String.join (s.data.map jsonEscapeChar)

mutual
/-- Plain `json.dumps` of an (already key-canonicalised) value, with the
default separators of the library. -/
def jsonDump : Value → String
  | .null => "null"
  | .bool true => "true"
  | .bool false => "false"
  | .int n => toString n
  | .str s => "\"" ++ jsonEscape s ++ "\""
  | .list l => "[" ++ jsonDumpL l ++ "]"
  | .dict d => "\x7b" ++ jsonDumpD d ++ "\x7d"

def jsonDumpL : VList → String
  | .nil => ""
  | .cons v .nil => jsonDump v
  | .cons v rest => jsonDump v ++ ", " ++ jsonDumpL rest

def jsonDumpD : VDict → String
  | .nil => ""
  | .cons k v .nil => "\"" ++ jsonEscape k ++ "\": " ++ jsonDump v
  | .cons k v rest => "\"" ++ jsonEscape k ++ "\": " ++ jsonDump v ++ ", " ++ jsonDumpD rest
end

/-- Python `str()` of a scalar value (`str(None) = "None"`, `str(True) =
"True"`, `str(3) = "3"`, `str("x") = "x"`). Structured values are routed to
`jsonDump` by `Index.get_indexable_value` and never reach this function. -/
def pyStr : Value → String
  | .null => "None"
  | .bool true => "True"
  | .bool false => "False"
  | .int n => toString n
  | .str s => s
  | .list l => "[" ++ jsonDumpL l ++ "]"
  | .dict d => "\x7b" ++ jsonDumpD d ++ "\x7d"

namespace Index

/-- Embeds `Index._get_indexable_value`: nested structures are serialized
with `json.dumps(value, sort_keys=True)`, everything else with `str()`. -/
def get_indexable_value : Value → String
  | .dict d => jsonDump (sortValue (.dict d))
  | .list l => jsonDump (sortValue (.list l))
  | v => pyStr v

end Index

/-- Association-list get: the binding of the first occurrence of the key,
i.e. Python `d[k]` / `k in d` on a dict (which has unique keys). -/
def aGet {α : Type} : List (String × α) → String → Option α
  | [], _ => none
  | (l, v) :: rest, k => if l = k then some v else aGet rest k

/-- Association-list set, mirroring CPython dict assignment: an existing key
keeps its position, a new key is appended at the end. -/
def aSet {α : Type} : List (String × α) → String → α → List (String × α)
  | [], k, v => [(k, v)]
  | (l, w) :: rest, k, v =>
      if l = k then (k, v) :: rest else (l, w) :: aSet rest k v

/-- Association-list delete (Python `del d[k]`). -/
def aDel {α : Type} : List (String × α) → String → List (String × α)
  | [], _ => []
  | (l, w) :: rest, k => if l = k then aDel rest k else (l, w) :: aDel rest k

/-- A stored document / query document / update document: a Python dict in
insertion order. -/
abbrev Doc := List (String × Value)

/-- Python `k in d`. -/
def hasKey (d : Doc) (k : String) : Bool :=
  (aGet d k).isSome

/-- Python `d.get(k)`: `None` both for an absent key and for a stored
`None`, exactly the conflation `IndexManager.update_indices` relies on. -/
def pyGet (d : Doc) (k : String) : Value :=
  (aGet d k).getD .null

/-- An index artifact: normalized key → list of document ids (the ids are
stored Python values; the engine inserts strings). -/
abbrev Bucket := List Value
abbrev IndexMap := List (String × Bucket)

/-- Python `x in bucket` (list membership by `==`). -/
def bucketMem (b : Bucket) (x : Value) : Bool :=
  b.any (fun y => pyEq y x)

/-- Python `bucket.remove(x)`: removes the first element `== x`. -/
def bucketRemove : Bucket → Value → Bucket
  | [], _ => []
  | y :: rest, x => if pyEq y x then rest else y :: bucketRemove rest x

/-- The bucket an index answers for a normalized key (`self.index.get(key, [])`). -/
def bucketOf (m : IndexMap) (k : String) : Bucket :=
  (aGet m k).getD []

namespace Index

/-- The shared bucket-append step of `Index.add` and of the add phase of
`Index.update`: `if key not in self.index: self.index[key] = []` followed by
`if doc_id not in self.index[key]: self.index[key].append(doc_id)`. -/
def addCore (m : IndexMap) (doc_id : Value) (key : String) : IndexMap :=
  let b := bucketOf m key
  if bucketMem b doc_id then m else aSet m key (b ++ [doc_id])

/-- Embeds `Index.add`: a `None` value is skipped entirely; otherwise the id
is appended to the bucket of the normalized key unless already present
(no falsy-key guard here, unlike `remove`/`update`). -/
def add (m : IndexMap) (doc_id : Value) (value : Value) : IndexMap :=
  if value = .null then m
  else addCore m doc_id (get_indexable_value value)

/-- Embeds `Index.remove`: `key = norm(value) if value is not None else
None`; the guard `if key and key in self.index` also skips a *falsy* (empty
string) key, and an emptied bucket is deleted. -/
def remove (m : IndexMap) (doc_id : Value) (value : Value) : IndexMap :=
  if value = .null then m
  else
    let key := get_indexable_value value
    if key = "" then m
    else
      match aGet m key with
      | none => m
      | some b =>
          let b1 := if bucketMem b doc_id then bucketRemove b doc_id else b
          if b1.isEmpty then aDel m key else aSet m key b1

/-- Embeds `Index.update`: the removal phase is line-for-line the body of
`Index.remove` (skip a `None` old value and a falsy old key, drop an
emptied bucket), so it is modelled by it; the add phase then registers the
new value unless it is `None` or its key is falsy. -/
def update (m : IndexMap) (doc_id : Value) (old_value new_value : Value) : IndexMap :=
  let m1 := remove m doc_id old_value
  if new_value = .null then m1
  else
    let nkey := get_indexable_value new_value
    if nkey = "" then m1
    else addCore m1 doc_id nkey

/-- Embeds `Index._build_index`: scan the collection file; every document
carrying the field (a `None` value included) contributes `doc.get('_id')`
to the bucket of its normalized value, appended without deduplication. -/
def buildStep (field : String) (m : IndexMap) (d : Doc) : IndexMap :=
  match aGet d field with
  | some v =>
      let key := get_indexable_value v
      aSet m key (bucketOf m key ++ [pyGet d "_id"])
  | none => m

/-- The full scan itself. -/
def build (field : String) (docs : List Doc) : IndexMap :=
  docs.foldl (buildStep field) []

/-- Embeds `Index.find_doc_ids`: the bucket of the normalized value, or `[]`. -/
def find_doc_ids (m : IndexMap) (value : Value) : Bucket :=
  bucketOf m (get_indexable_value value)

end Index

/-- The `IndexManager.indices` dict: indexed field → index artifact. -/
abbrev Indices := List (String × IndexMap)

namespace IndexManager

/-- Embeds `IndexManager.add_to_indices`. -/
def add_to_indices (ix : Indices) (doc_id : Value) (document : Doc) : Indices :=
  ix.map (fun fm => (fm.1,
    match aGet document fm.1 with
    | some v => Index.add fm.2 doc_id v
    | none => fm.2))

/-- Embeds `IndexManager.update_indices`: each tracked field is touched only
when `old_doc.get(field) != new_doc.get(field)` under Python `==`. -/
def update_indices (ix : Indices) (doc_id : Value) (old_doc new_doc : Doc) : Indices :=
  ix.map (fun fm => (fm.1,
    let ov := pyGet old_doc fm.1
    let nv := pyGet new_doc fm.1
    if pyEq ov nv then fm.2 else Index.update fm.2 doc_id ov nv))

/-- Embeds `IndexManager.remove_from_indices`. -/
def remove_from_indices (ix : Indices) (doc_id : Value) (document : Doc) : Indices :=
  ix.map (fun fm => (fm.1,
    match aGet document fm.1 with
    | some v => Index.remove fm.2 doc_id v
    | none => fm.2))

/-- Embeds `IndexManager.find_by_index`. -/
def find_by_index (ix : Indices) (field : String) (value : Value) : Bucket :=
  match aGet ix field with
  | some m => Index.find_doc_ids m value
  | none => []

/-- Embeds `IndexManager.list_indices` membership (`field in indexed_fields`). -/
def isIndexed (ix : Indices) (field : String) : Bool :=
  (aGet ix field).isSome

end IndexManager

/-- Embeds `Document.__init__` as called from `Collection.insert` (with
`doc_id=None`): `self.id` is a fresh UUID `genId`; `_id` is added only when
the data does not already carry one; `_created_at` is added when absent;
`_updated_at` is always overwritten. -/
def Document.new (data : Doc) (genId now : String) : Doc :=
  let d1 := if hasKey data "_id" then data else data ++ [("_id", .str genId)]
  let d2 := if hasKey d1 "_created_at" then d1 else d1 ++ [("_created_at", .str now)]
  aSet d2 "_updated_at" (.str now)

/-- One collection: the parsed content of its `.digitool` file plus its
`IndexManager` state. -/
structure Collection where
  docs : List Doc
  indices : Indices
  deriving DecidableEq

namespace Collection

/-- Embeds the matching loop shared by `find`, `update` and `delete`:
`for key, value in query.items(): if key not in doc or doc[key] != value`. -/
def matchesQuery (doc : Doc) (query : Doc) : Bool :=
  query.all (fun kv =>
    match aGet doc kv.1 with
    | some w => pyEq w kv.2
    | none => false)

/-- Embeds `Collection.insert` for a dict argument: wrap in a `Document`
(fresh UUID `genId`, timestamp `now`), append to the file, then
`add_to_indices(document.id, document.data)` — note the id registered with
the indices is `document.id`, not the stored `_id` field. -/
def insert (c : Collection) (data : Doc) (genId now : String) : Collection × String :=
  let d := Document.new data genId now
  (⟨c.docs ++ [d], IndexManager.add_to_indices c.indices (.str genId) d⟩, genId)

/-- Embeds `Collection.find`: an empty (falsy) query returns every document;
otherwise the first indexed query field (in query order) narrows the
candidates by `doc['_id'] in indexed_doc_ids`, with an early `[]` on an
empty (falsy) id set; every candidate is then checked against the whole
query. -/
def find (c : Collection) (query : Doc) : List Doc :=
  if query.isEmpty then c.docs
  else
    match query.find? (fun kv => IndexManager.isIndexed c.indices kv.1) with
    | some (field, v) =>
        let ids := IndexManager.find_by_index c.indices field v
        if ids.isEmpty then []
        else
          c.docs.filter (fun doc =>
            bucketMem ids (pyGet doc "_id") && matchesQuery doc query)
    | none => c.docs.filter (fun doc => matchesQuery doc query)

/-- Embeds the `$set` branch of `Collection.update`:
`for k, v in update['$set'].items(): doc[k] = v`. -/
def applySet (doc : Doc) : VDict → Doc
  | .nil => doc
  | .cons k v rest => applySet (aSet doc k v) rest

/-- Embeds the `$inc` branch: a numeric existing value (Python counts `bool`
as `int`) is incremented, anything else is replaced outright by the delta.
A non-numeric delta over a numeric value raises `TypeError` in the source
and is outside the modelled domain (the reachability relation below keeps
deltas numeric). -/
def applyInc (doc : Doc) : VDict → Doc
  | .nil => doc
  | .cons k v rest =>
      let newv : Value :=
        match aGet doc k, v with
        | some (.int m), .int n => .int (m + n)
        | some (.int m), .bool b => .int (m + (if b then 1 else 0))
        | some (.bool a), .int n => .int ((if a then 1 else 0) + n)
        | some (.bool a), .bool b => .int ((if a then 1 else 0) + (if b then 1 else 0))
        | _, _ => v
      applyInc (aSet doc k newv) rest

/-- Embeds `doc.update(update)` (the full-replacement branch): every key of
the update dict is assigned into the document in order. -/
def dictMerge (doc : Doc) (upd : Doc) : Doc :=
  upd.foldl (fun d kv => aSet d kv.1 kv.2) doc

/-- Embeds the per-document body of `Collection.update`: `$set` wins over
`$inc` (key presence, `elif`), otherwise merge and restore `_id`; every
branch finally stamps `_updated_at`. -/
def applyUpdate (doc upd : Doc) (now : String) : Doc :=
  let d1 :=
    if hasKey upd "$set" then
      match aGet upd "$set" with
      | some (.dict s) => applySet doc s
      | _ => doc
    else if hasKey upd "$inc" then
      match aGet upd "$inc" with
      | some (.dict s) => applyInc doc s
      | _ => doc
    else
      aSet (dictMerge doc upd) "_id" (pyGet doc "_id")
  aSet d1 "_updated_at" (.str now)

/-- The update loop: each matched document is rewritten in place and
`update_indices(doc['_id'], old_doc, doc)` runs immediately, before the
next document is visited. -/
def updateLoop (q upd : Doc) (now : String) :
    List Doc → Indices → List Doc × Indices × Nat
  | [], ix => ([], ix, 0)
  | doc :: rest, ix =>
      if matchesQuery doc q then
        let d1 := applyUpdate doc upd now
        let ix1 := IndexManager.update_indices ix (pyGet d1 "_id") doc d1
        let (ds, ix2, n) := updateLoop q upd now rest ix1
        (d1 :: ds, ix2, n + 1)
      else
        let (ds, ix2, n) := updateLoop q upd now rest ix
        (doc :: ds, ix2, n)

/-- Embeds `Collection.update`. -/
def update (c : Collection) (q upd : Doc) (now : String) : Collection × Nat :=
  let (ds, ix, n) := updateLoop q upd now c.docs c.indices
  (⟨ds, ix⟩, n)

/-- Embeds `Collection.delete`: an empty (falsy) query deletes nothing and
returns 0; otherwise the matched documents are dropped from the file and
each is removed from every index by its last document image. -/
def delete (c : Collection) (q : Doc) : Collection × Nat :=
  if q.isEmpty then (c, 0)
  else
    let kept := c.docs.filter (fun doc => !(matchesQuery doc q))
    let deleted := c.docs.filter (fun doc => matchesQuery doc q)
    let n := c.docs.length - kept.length
    if n == 0 then (c, 0)
    else
      let ix := deleted.foldl
        (fun ix doc => IndexManager.remove_from_indices ix (pyGet doc "_id") doc) c.indices
      (⟨kept, ix⟩, n)

/-- Embeds `Collection.create_index` / `IndexManager.ensure_index` on a
collection whose index artifact is absent: a new index is built by a full
scan of the current file and registered. -/
def create_index (c : Collection) (field : String) : Collection :=
  if IndexManager.isIndexed c.indices field then c
  else ⟨c.docs, c.indices ++ [(field, Index.build field c.docs)]⟩

/-- Embeds `Collection.drop_index`. -/
def drop_index (c : Collection) (field : String) : Collection × Bool :=
  if IndexManager.isIndexed c.indices field then
    (⟨c.docs, aDel c.indices field⟩, true)
  else (c, false)

/-- The empty collection (a freshly created `.digitool` file holding `[]`,
no index artifacts). -/
def empty : Collection := ⟨[], []⟩

end Collection

/-!
Concurrency model for `Collection.insert`.  The source `Collection` holds no
lock of any kind; `insert` is `_read_collection()` followed by
`_write_collection(documents + [document.data])` on the shared file.  The
two phases of two concurrent inserts are modelled as atomic actions on the
shared file state; a schedule is a list of actions.
-/

/-- Shared state of two threads concurrently inserting into one collection:
the collection file plus each thread's private snapshot from
`_read_collection` (none before the thread has read). -/
structure RaceState where
  file : List Doc
  snap0 : Option (List Doc)
  snap1 : Option (List Doc)
  deriving DecidableEq

/-- The atomic phases of the two unsynchronized `insert` calls: thread `t`
reads the file, then writes back its snapshot plus its own new document. -/
inductive RaceAct : Type where
  | read0 | read1 | write0 | write1
  deriving DecidableEq

/-- Execute one phase: `read` captures the file (`_read_collection`);
`write` overwrites the file with the captured list plus the thread's
document (`documents.append(document.data); _write_collection(documents)`). -/
def raceStep (d0 d1 : Doc) (s : RaceState) : RaceAct → RaceState
  | .read0 => { s with snap0 := some s.file }
  | .read1 => { s with snap1 := some s.file }
  | .write0 =>
      match s.snap0 with
      | some ds => { s with file := ds ++ [d0] }
      | none => s
  | .write1 =>
      match s.snap1 with
      | some ds => { s with file := ds ++ [d1] }
      | none => s

/-- Run a schedule of phases from an empty collection file. -/
def raceRun (d0 d1 : Doc) (sched : List RaceAct) : RaceState :=
  sched.foldl (raceStep d0 d1) ⟨[], none, none⟩

/-!
Invariant and reachability definitions.

The engine maintains its indices incrementally; the invariants below
characterise the states its well-behaved flows can actually reach.  The
side conditions are forced by genuine behaviours of the source, each
witnessed by a counterexample theorem below:
* a caller-supplied `_id` desynchronises `document.id` (the id registered
  with every index and returned to the caller) from the stored `_id` field
  and can duplicate ids;
* a `None` field value is skipped by `Index.add` but indexed by
  `Index._build_index`;
* an empty-string index key is falsy and defeats the `if key and key in
  self.index` removal guards in `Index.update`/`Index.remove`;
* `IndexManager.update_indices` skips fields whose old and new values are
  Python-equal, so replacing a value by a Python-equal value with a
  different normalization (`1` vs `True`) strands the old index entry.
-/

/-- A benign stored field value: not `None` (skipped by `Index.add`) and
not the empty string (whose index key is falsy). -/
def goodVal (v : Value) : Bool :=
  !(v == .null) && !(v == .str "")

/-- Well-formedness of the stored document list: every document has a
non-empty string `_id`, the `_id` values are pairwise distinct, and every
top-level field value is benign. -/
structure DocsOk (docs : List Doc) : Prop where
  ids : ∀ d ∈ docs, ∃ s : String, s ≠ "" ∧ aGet d "_id" = some (.str s)
  nodup : docs.Pairwise (fun a b => aGet a "_id" ≠ aGet b "_id")
  vals : ∀ d ∈ docs, ∀ kv ∈ d, goodVal kv.2 = true

/-- The index/collection consistency invariant for one index: an id sits in
the bucket of key `k` exactly when some stored document carries that id and
holds the indexed field with a value normalizing to `k`. -/
def IdxOk (docs : List Doc) (field : String) (m : IndexMap) : Prop :=
  ∀ k x, x ∈ bucketOf m k ↔
    ∃ d ∈ docs, aGet d "_id" = some x ∧
      ∃ w, aGet d field = some w ∧ Index.get_indexable_value w = k

/-- Every bucket of an index is duplicate-free. -/
def BucketsOk (m : IndexMap) : Prop :=
  ∀ k, (bucketOf m k).Nodup

/-- The whole-collection invariant. -/
structure CollInv (c : Collection) : Prop where
  docs_ok : DocsOk c.docs
  idx_ok : ∀ fm ∈ c.indices, IdxOk c.docs fm.1 fm.2
  buckets_ok : ∀ fm ∈ c.indices, BucketsOk fm.2

/-- Admissible insert data: no caller-supplied `_id` and benign values. -/
def goodData (data : Doc) : Bool :=
  !(hasKey data "_id") && data.all (fun kv => goodVal kv.2)

/-- Admissible generated id: non-empty (its index key must not be falsy)
and fresh for the current documents (UUID collisions are assumed away). -/
def freshId (docs : List Doc) (genId : String) : Bool :=
  !(genId == "") && docs.all (fun d => !(aGet d "_id" == some (.str genId)))

/-- Check of all bindings of a nested dict. -/
def vdAll (p : String → Value → Bool) : VDict → Bool
  | .nil => true
  | .cons k v rest => p k v && vdAll p rest

/-- A numeric (`int`/`bool`) delta for `$inc`; any other delta over a
numeric stored value raises `TypeError` in the source. -/
def isNum : Value → Bool
  | .int _ => true
  | .bool _ => true
  | _ => false

/-- Admissible update document: `$set` never touches `_id` and writes
benign values; `$inc` never touches `_id` and uses numeric deltas; a
replacement document carries benign values (`_id` is restored by the code
itself). -/
def goodUpd (upd : Doc) : Bool :=
  if hasKey upd "$set" then
    match aGet upd "$set" with
    | some (.dict s) => vdAll (fun k v => !(k == "_id") && goodVal v) s
    | _ => false
  else if hasKey upd "$inc" then
    match aGet upd "$inc" with
    | some (.dict s) => vdAll (fun k v => !(k == "_id") && isNum v) s
    | _ => false
  else upd.all (fun kv => goodVal kv.2)

/-- Two values that are Python-equal must normalize identically for
`update_indices` (which compares with `!=`) to keep the index exact; this
rules out e.g. replacing `1` by `True`. -/
def normCompat (ov nv : Value) : Bool :=
  !(pyEq ov nv) || (Index.get_indexable_value ov == Index.get_indexable_value nv)

/-- The norm-compatibility condition for one update against the current
state: for every indexed field, every matched document's old and new values
on that field are norm-compatible. -/
def updCompat (c : Collection) (q upd : Doc) (now : String) : Bool :=
  c.indices.all (fun fm =>
    c.docs.all (fun d =>
      !(Collection.matchesQuery d q) ||
        normCompat (pyGet d fm.1) (pyGet (Collection.applyUpdate d upd now) fm.1)))

/-- States reachable from a fresh collection through admissible operations:
inserts never supply `_id`, generated ids are fresh and non-empty,
timestamps are non-empty, update documents are admissible and
norm-compatible, and deletes, index creations and index drops are
unrestricted. -/
inductive Reach : Collection → Prop where
  | empty : Reach Collection.empty
  | insert {c : Collection} (data : Doc) (genId now : String) :
      Reach c → goodData data = true → freshId c.docs genId = true → now ≠ "" →
      Reach (c.insert data genId now).1
  | update {c : Collection} (q upd : Doc) (now : String) :
      Reach c → goodUpd upd = true → now ≠ "" → updCompat c q upd now = true →
      Reach (c.update q upd now).1
  | delete {c : Collection} (q : Doc) :
      Reach c → Reach (c.delete q).1
  | create_index {c : Collection} (field : String) :
      Reach c → Reach (c.create_index field)
  | drop_index {c : Collection} (field : String) :
      Reach c → Reach (c.drop_index field).1

/-- Key membership in a nested dict. -/
def vdHasKey : VDict → String → Bool
  | .nil, _ => false
  | .cons l _ rest, k => l == k || vdHasKey rest k

/-- Value membership in a nested dict. -/
def vdMemVal : VDict → Value → Prop
  | .nil, _ => False
  | .cons _ w rest, v => v = w ∨ vdMemVal rest v

/-- Freshness of a generated id for the current documents alone: the bare
UUID collision assumption, with no further well-behavedness demanded. -/
def freshIdOnly (docs : List Doc) (genId : String) : Bool :=
  docs.all (fun d => !(aGet d "_id" == some (.str genId)))

/-- An update document whose operators never touch `_id`: a `$set` or
`$inc` payload is a dict (as the source requires to run `.items()` at all)
none of whose keys is `_id`; an operator-less replacement document is
unrestricted, since the code itself restores `_id` after the merge. -/
def idSafeUpd (upd : Doc) : Bool :=
  if hasKey upd "$set" then
    match aGet upd "$set" with
    | some (.dict s) => vdAll (fun k _ => !(k == "_id")) s
    | _ => false
  else if hasKey upd "$inc" then
    match aGet upd "$inc" with
    | some (.dict s) => vdAll (fun k _ => !(k == "_id")) s
    | _ => false
  else true

/-- The id fragment of document well-formedness on its own: every stored
document carries an `_id` binding and the `_id` values are pairwise
distinct.  Unlike `DocsOk` it says nothing about other field values. -/
structure IdsOk (docs : List Doc) : Prop where
  ids : ∀ d ∈ docs, ∃ w : Value, aGet d "_id" = some w
  nodup : docs.Pairwise (fun a b => aGet a "_id" ≠ aGet b "_id")

/-- States reachable under only the restrictions id uniqueness itself is
claimed for: inserts never supply `_id` and the generated ids are fresh;
update operators are well-formed dicts never touching `_id`; field values,
timestamps, queries, deletes and index operations are unrestricted (null
and empty-string values, empty timestamps and non-numeric `$inc` deltas
are all admitted, unlike under `Reach`). -/
inductive ReachU : Collection → Prop where
  | empty : ReachU Collection.empty
  | insert {c : Collection} (data : Doc) (genId now : String) :
      ReachU c → hasKey data "_id" = false → freshIdOnly c.docs genId = true →
      ReachU (c.insert data genId now).1
  | update {c : Collection} (q upd : Doc) (now : String) :
      ReachU c → idSafeUpd upd = true → ReachU (c.update q upd now).1
  | delete {c : Collection} (q : Doc) :
      ReachU c → ReachU (c.delete q).1
  | create_index {c : Collection} (field : String) :
      ReachU c → ReachU (c.create_index field)
  | drop_index {c : Collection} (field : String) :
      ReachU c → ReachU (c.drop_index field).1

/-!
Basic lemmas: strings, Python equality, association lists and buckets.
-/

theorem string_append_data (a b : String) : (a ++ b).data = a.data ++ b.data := rfl

theorem toDigitsCore_length_le (b : Nat) :
    ∀ (fuel n : Nat) (ds : List Char), ds.length ≤ (Nat.toDigitsCore b fuel n ds).length := by
  intro fuel
  induction fuel with
  | zero => intro n ds; simp [Nat.toDigitsCore]
  | succ f ih =>
      intro n ds
      rw [Nat.toDigitsCore]
      split
      · simp
      · exact le_trans (by simp) (ih _ _)

theorem toDigits_ne_nil (b n : Nat) : Nat.toDigits b n ≠ [] := by
  unfold Nat.toDigits
  intro h
  rw [Nat.toDigitsCore] at h
  revert h
  split
  · simp
  · intro h
    have h2 := toDigitsCore_length_le b n (n / b) [Nat.digitChar (n % b)]
    rw [h] at h2
    simp at h2

theorem nat_repr_ne_empty (n : Nat) : Nat.repr n ≠ "" := by
  unfold Nat.repr
  intro h
  have h1 := congrArg String.length h
  rw [List.length_asString] at h1
  have h2 := toDigits_ne_nil 10 n
  cases hh : Nat.toDigits 10 n with
  | nil => exact h2 hh
  | cons c cs => rw [hh] at h1; simp at h1

theorem int_toString_ne_empty (n : Int) : toString n ≠ "" := by
  show Int.repr n ≠ ""
  cases n with
  | ofNat m => exact nat_repr_ne_empty m
  | negSucc m =>
      show "-" ++ Nat.repr (m + 1) ≠ ""
      intro h
      have h2 : ('-' :: (Nat.repr (m + 1)).data) = ([] : List Char) := congrArg String.data h
      simp at h2

theorem get_indexable_value_ne_empty (v : Value) (h : v ≠ .str "") :
    Index.get_indexable_value v ≠ "" := by
  cases v with
  | null => decide
  | bool b => cases b <;> decide
  | int n => exact int_toString_ne_empty n
  | str s =>
      intro hh
      exact h (by rw [show Index.get_indexable_value (.str s) = s from rfl] at hh; rw [hh])
  | list l =>
      intro hh
      have h2 : ('[' :: (jsonDumpL (sortElems l)).data) ++ [']'] = ([] : List Char) := by
        have h3 := congrArg String.data hh
        rw [show Index.get_indexable_value (.list l) =
          ("[" ++ jsonDumpL (sortElems l)) ++ "]" from rfl] at h3
        rw [string_append_data, string_append_data] at h3
        exact h3
      simp at h2
  | dict d =>
      intro hh
      have h2 : ('\x7b' :: (jsonDumpD (vdSort (sortFields d))).data) ++ ['\x7d'] = ([] : List Char) := by
        have h3 := congrArg String.data hh
        rw [show Index.get_indexable_value (.dict d) =
          ("\x7b" ++ jsonDumpD (vdSort (sortFields d))) ++ "\x7d" from rfl] at h3
        rw [string_append_data, string_append_data] at h3
        exact h3
      simp at h2

theorem pyEq_str_iff (x : Value) (s : String) : pyEq x (.str s) = true ↔ x = .str s := by
  cases x <;> simp [pyEq]

theorem pyEq_null_right (x : Value) : pyEq x .null = true ↔ x = .null := by
  cases x <;> simp [pyEq]

theorem pyEq_null_left (x : Value) : pyEq .null x = true ↔ x = .null := by
  cases x <;> simp [pyEq]

section AssocLemmas

variable {α : Type}

theorem aGet_aSet_self (m : List (String × α)) (k : String) (v : α) :
    aGet (aSet m k v) k = some v := by
  induction m with
  | nil => simp [aSet, aGet]
  | cons p rest ih =>
      obtain ⟨l, w⟩ := p
      by_cases h : l = k
      · simp [aSet, aGet, h]
      · simp [aSet, aGet, h, ih]

theorem aGet_aSet_ne (m : List (String × α)) (k k' : String) (v : α) (h : k' ≠ k) :
    aGet (aSet m k v) k' = aGet m k' := by
  induction m with
  | nil => simp [aSet, aGet, Ne.symm h]
  | cons p rest ih =>
      obtain ⟨l, w⟩ := p
      simp only [aSet]
      by_cases hl : l = k
      · rw [if_pos hl,
          show aGet ((k, v) :: rest) k' = if k = k' then some v else aGet rest k' from rfl,
          if_neg (Ne.symm h),
          show aGet ((l, w) :: rest) k' = if l = k' then some w else aGet rest k' from rfl,
          if_neg (by rw [hl]; exact Ne.symm h)]
      · rw [if_neg hl,
          show aGet ((l, w) :: aSet rest k v) k' =
            if l = k' then some w else aGet (aSet rest k v) k' from rfl,
          show aGet ((l, w) :: rest) k' = if l = k' then some w else aGet rest k' from rfl, ih]

theorem aGet_aSet (m : List (String × α)) (k k' : String) (v : α) :
    aGet (aSet m k v) k' = if k' = k then some v else aGet m k' := by
  by_cases h : k' = k
  · subst h; simp [aGet_aSet_self]
  · simp [h, aGet_aSet_ne m k k' v h]

theorem aGet_aDel (m : List (String × α)) (k k' : String) :
    aGet (aDel m k) k' = if k' = k then none else aGet m k' := by
  induction m with
  | nil => simp [aDel, aGet]
  | cons p rest ih =>
      obtain ⟨l, w⟩ := p
      simp only [aDel]
      by_cases hl : l = k
      · rw [if_pos hl, ih]
        by_cases h2 : k' = k
        · simp [h2]
        · rw [if_neg h2, if_neg h2,
            show aGet ((l, w) :: rest) k' = if l = k' then some w else aGet rest k' from rfl,
            if_neg (by rw [hl]; exact fun hh => h2 hh.symm)]
      · rw [if_neg hl]
        by_cases h2 : l = k'
        · subst h2
          simp [aGet, hl]
        · rw [show aGet ((l, w) :: aDel rest k) k' =
              if l = k' then some w else aGet (aDel rest k) k' from rfl, if_neg h2, ih,
            show aGet ((l, w) :: rest) k' = if l = k' then some w else aGet rest k' from rfl,
            if_neg h2]

theorem aGet_append (l1 l2 : List (String × α)) (k : String) :
    aGet (l1 ++ l2) k =
      match aGet l1 k with
      | some v => some v
      | none => aGet l2 k := by
  induction l1 with
  | nil => simp [aGet]
  | cons p rest ih =>
      obtain ⟨l, w⟩ := p
      by_cases h : l = k
      · simp [aGet, h]
      · simp [aGet, h, ih]

theorem mem_aSet (m : List (String × α)) (k : String) (v : α) :
    ∀ p ∈ aSet m k v, p ∈ m ∨ p = (k, v) := by
  induction m with
  | nil => simp [aSet]
  | cons q rest ih =>
      obtain ⟨l, w⟩ := q
      intro p hp
      by_cases h : l = k
      · simp only [aSet, h, if_true] at hp
        rcases List.mem_cons.mp hp with h1 | h1
        · right; exact h1
        · left; exact List.mem_cons_of_mem _ h1
      · simp only [aSet, h, if_false] at hp
        rcases List.mem_cons.mp hp with h1 | h1
        · left; exact h1 ▸ List.mem_cons_self _ _
        · rcases ih p h1 with h2 | h2
          · left; exact List.mem_cons_of_mem _ h2
          · right; exact h2

theorem aGet_mem (m : List (String × α)) (k : String) (v : α) (h : aGet m k = some v) :
    (k, v) ∈ m := by
  induction m with
  | nil => simp [aGet] at h
  | cons p rest ih =>
      obtain ⟨l, w⟩ := p
      by_cases hl : l = k
      · subst hl
        simp [aGet] at h
        subst h
        exact List.mem_cons_self _ _
      · simp [aGet, hl] at h
        exact List.mem_cons_of_mem _ (ih h)

end AssocLemmas

theorem bucketOf_aSet (m : IndexMap) (k k' : String) (b : Bucket) :
    bucketOf (aSet m k b) k' = if k' = k then b else bucketOf m k' := by
  unfold bucketOf
  rw [aGet_aSet]
  by_cases h : k' = k <;> simp [h]

theorem bucketOf_aDel (m : IndexMap) (k k' : String) :
    bucketOf (aDel m k) k' = if k' = k then [] else bucketOf m k' := by
  unfold bucketOf
  rw [aGet_aDel]
  by_cases h : k' = k <;> simp [h]

theorem bucketMem_str (b : Bucket) (s : String) :
    bucketMem b (.str s) = true ↔ .str s ∈ b := by
  unfold bucketMem
  rw [List.any_eq_true]
  constructor
  · rintro ⟨y, hy, he⟩
    rwa [(pyEq_str_iff y s).mp he] at hy
  · intro hy
    exact ⟨.str s, hy, (pyEq_str_iff _ s).mpr rfl⟩

theorem bucketRemove_sublist (b : Bucket) (x : Value) : (bucketRemove b x).Sublist b := by
  induction b with
  | nil => simp [bucketRemove]
  | cons y rest ih =>
      unfold bucketRemove
      by_cases h : pyEq y x = true
      · simp [h]
      · simp only [h, if_false]
        exact List.Sublist.cons₂ y ih

theorem bucketRemove_nodup (b : Bucket) (x : Value) (h : b.Nodup) :
    (bucketRemove b x).Nodup :=
  (bucketRemove_sublist b x).nodup h

theorem mem_bucketRemove_str (b : Bucket) (s : String) (hnd : b.Nodup) (x : Value) :
    x ∈ bucketRemove b (.str s) ↔ x ∈ b ∧ x ≠ .str s := by
  induction b with
  | nil => simp [bucketRemove]
  | cons y rest ih =>
      have hnd' : rest.Nodup := (List.nodup_cons.mp hnd).2
      have hy : y ∉ rest := (List.nodup_cons.mp hnd).1
      unfold bucketRemove
      by_cases h : pyEq y (.str s) = true
      · have hys : y = .str s := (pyEq_str_iff y s).mp h
        subst hys
        simp only [h, if_true]
        constructor
        · intro hx
          exact ⟨List.mem_cons_of_mem _ hx, fun he => hy (he ▸ hx)⟩
        · rintro ⟨hx, hne⟩
          rcases List.mem_cons.mp hx with h1 | h1
          · exact absurd h1 hne
          · exact h1
      · have hys : y ≠ .str s := fun he => h ((pyEq_str_iff y s).mpr he)
        simp only [h, if_false]
        constructor
        · intro hx
          rcases List.mem_cons.mp hx with h1 | h1
          · exact ⟨h1 ▸ List.mem_cons_self _ _, h1 ▸ hys⟩
          · have := (ih hnd').mp h1
            exact ⟨List.mem_cons_of_mem _ this.1, this.2⟩
        · rintro ⟨hx, hne⟩
          rcases List.mem_cons.mp hx with h1 | h1
          · exact h1 ▸ List.mem_cons_self _ _
          · exact List.mem_cons_of_mem _ ((ih hnd').mpr ⟨h1, hne⟩)

/-!
Lemmas about values, documents and the reserved-field machinery.
-/

theorem goodVal_iff (v : Value) : goodVal v = true ↔ v ≠ .null ∧ v ≠ .str "" := by
  simp [goodVal]

theorem hasKey_false_iff (d : Doc) (k : String) : hasKey d k = false ↔ aGet d k = none := by
  unfold hasKey
  cases aGet d k <;> simp

theorem hasKey_true_iff (d : Doc) (k : String) : hasKey d k = true ↔ ∃ v, aGet d k = some v := by
  unfold hasKey
  cases aGet d k <;> simp

theorem pyGet_eq_of_aGet (d : Doc) (k : String) (v : Value) (h : aGet d k = some v) :
    pyGet d k = v := by
  simp [pyGet, h]

theorem pyGet_none (d : Doc) (k : String) (h : aGet d k = none) : pyGet d k = .null := by
  simp [pyGet, h]

theorem aGet_of_pyGet_ne_null (d : Doc) (k : String) (h : pyGet d k ≠ .null) :
    aGet d k = some (pyGet d k) := by
  cases hh : aGet d k with
  | none => exact absurd (pyGet_none d k hh) h
  | some v => rw [pyGet_eq_of_aGet d k v hh]

theorem aGet_append_single_ne {α : Type} (l : List (String × α)) (k0 k : String) (v : α)
    (h : k ≠ k0) : aGet (l ++ [(k0, v)]) k = aGet l k := by
  rw [aGet_append]
  cases aGet l k with
  | some w => simp
  | none => simp [aGet, Ne.symm h]

theorem aGet_append_single_self {α : Type} (l : List (String × α)) (k : String) (v : α)
    (h : aGet l k = none) : aGet (l ++ [(k, v)]) k = some v := by
  rw [aGet_append, h]
  simp [aGet]

theorem Document.new_id (data : Doc) (genId now : String) (h : hasKey data "_id" = false) :
    aGet (Document.new data genId now) "_id" = some (.str genId) := by
  unfold Document.new
  rw [h]
  simp only [Bool.false_eq_true, if_false]
  have h0 : aGet data "_id" = none := (hasKey_false_iff data "_id").mp h
  have h1 : aGet (data ++ [("_id", Value.str genId)]) "_id" = some (.str genId) :=
    aGet_append_single_self data "_id" (.str genId) h0
  by_cases h2 : hasKey (data ++ [("_id", Value.str genId)]) "_created_at" = true
  · rw [if_pos h2, aGet_aSet_ne _ _ _ _ (by decide)]
    exact h1
  · rw [if_neg h2, aGet_aSet_ne _ _ _ _ (by decide),
      aGet_append_single_ne _ _ _ _ (by decide)]
    exact h1

theorem Document.new_other (data : Doc) (genId now : String) (k : String)
    (h1 : k ≠ "_id") (h2 : k ≠ "_created_at") (h3 : k ≠ "_updated_at") :
    aGet (Document.new data genId now) k = aGet data k := by
  simp only [Document.new]
  by_cases hk : hasKey data "_id" = true
  · rw [if_pos hk]
    by_cases hc : hasKey data "_created_at" = true
    · rw [if_pos hc, aGet_aSet_ne _ _ _ _ h3]
    · rw [if_neg hc, aGet_aSet_ne _ _ _ _ h3, aGet_append_single_ne _ _ _ _ h2]
  · rw [if_neg hk]
    by_cases hc : hasKey (data ++ [("_id", Value.str genId)]) "_created_at" = true
    · rw [if_pos hc, aGet_aSet_ne _ _ _ _ h3, aGet_append_single_ne _ _ _ _ h1]
    · rw [if_neg hc, aGet_aSet_ne _ _ _ _ h3, aGet_append_single_ne _ _ _ _ h2,
        aGet_append_single_ne _ _ _ _ h1]

theorem Document.new_updated (data : Doc) (genId now : String) :
    aGet (Document.new data genId now) "_updated_at" = some (.str now) := by
  simp only [Document.new]
  by_cases hk : hasKey data "_id" = true
  · rw [if_pos hk]
    by_cases hc : hasKey data "_created_at" = true
    · rw [if_pos hc]; exact aGet_aSet_self _ _ _
    · rw [if_neg hc]; exact aGet_aSet_self _ _ _
  · rw [if_neg hk]
    by_cases hc : hasKey (data ++ [("_id", Value.str genId)]) "_created_at" = true
    · rw [if_pos hc]; exact aGet_aSet_self _ _ _
    · rw [if_neg hc]; exact aGet_aSet_self _ _ _

theorem Document.new_mem (data : Doc) (genId now : String) :
    ∀ kv ∈ Document.new data genId now,
      kv ∈ data ∨ kv = ("_id", Value.str genId) ∨ kv = ("_created_at", Value.str now) ∨
        kv = ("_updated_at", Value.str now) := by
  unfold Document.new
  intro kv hkv
  have step2 : ∀ (d1 : Doc),
      kv ∈ aSet (if hasKey d1 "_created_at" then d1 else d1 ++ [("_created_at", Value.str now)])
        "_updated_at" (Value.str now) →
      kv ∈ d1 ∨ kv = ("_created_at", Value.str now) ∨ kv = ("_updated_at", Value.str now) := by
    intro d1 hm
    rcases mem_aSet _ _ _ kv hm with h | h
    · by_cases hc : hasKey d1 "_created_at" = true
      · rw [if_pos hc] at h; exact Or.inl h
      · rw [if_neg hc] at h
        rcases List.mem_append.mp h with h2 | h2
        · exact Or.inl h2
        · simp at h2; right; left; rw [h2]
    · right; right; exact h
  by_cases hk : hasKey data "_id" = true
  · rw [if_pos hk] at hkv
    rcases step2 data hkv with h | h | h
    · exact Or.inl h
    · right; right; left; exact h
    · right; right; right; exact h
  · rw [if_neg hk] at hkv
    rcases step2 (data ++ [("_id", Value.str genId)]) hkv with h | h | h
    · rcases List.mem_append.mp h with h2 | h2
      · exact Or.inl h2
      · simp at h2; right; left; rw [h2]
    · right; right; left; exact h
    · right; right; right; exact h

theorem eq_of_pairwise_ne {α β : Type} (f : α → β) :
    ∀ (l : List α), l.Pairwise (fun a b => f a ≠ f b) →
      ∀ a ∈ l, ∀ b ∈ l, f a = f b → a = b := by
  intro l
  induction l with
  | nil => intro _ a ha; simp at ha
  | cons c rest ih =>
      intro hp a ha b hb hf
      have hpc := List.pairwise_cons.mp hp
      rcases List.mem_cons.mp ha with h1 | h1 <;> rcases List.mem_cons.mp hb with h2 | h2
      · rw [h1, h2]
      · exact absurd (h1 ▸ hf) (hpc.1 b h2)
      · exact absurd (h2 ▸ hf).symm (hpc.1 a h1)
      · exact ih hpc.2 a h1 b h2 hf

/-!
Specification lemmas for the index maintenance operations, under the
conditions (non-null value, non-falsy key, duplicate-free buckets, string
ids) that the reachable states provide.
-/

theorem not_mem_of_not_bucketMem (b : Bucket) (s : String)
    (h : bucketMem b (.str s) = false) : Value.str s ∉ b := by
  intro hm
  rw [← Bool.not_eq_true] at h
  exact h ((bucketMem_str b s).mpr hm)

theorem bucketMem_false_of_not_mem (b : Bucket) (s : String)
    (h : Value.str s ∉ b) : bucketMem b (.str s) = false := by
  rw [← Bool.not_eq_true]
  intro hm
  exact h ((bucketMem_str b s).mp hm)

theorem Index.addCore_spec (m : IndexMap) (s : String) (key : String)
    (h : Value.str s ∉ bucketOf m key) (k : String) (x : Value) :
    x ∈ bucketOf (Index.addCore m (.str s) key) k ↔
      x ∈ bucketOf m k ∨ (k = key ∧ x = .str s) := by
  unfold Index.addCore
  dsimp only
  rw [bucketMem_false_of_not_mem _ _ h]
  simp only [Bool.false_eq_true, if_false]
  rw [bucketOf_aSet]
  by_cases hk : k = key
  · subst hk
    simp
  · simp [hk]

theorem Index.addCore_bucketsOk (m : IndexMap) (s : String) (key : String)
    (hb : BucketsOk m) (h : Value.str s ∉ bucketOf m key) :
    BucketsOk (Index.addCore m (.str s) key) := by
  unfold Index.addCore
  dsimp only
  rw [bucketMem_false_of_not_mem _ _ h]
  simp only [Bool.false_eq_true, if_false]
  intro k
  rw [bucketOf_aSet]
  by_cases hk : k = key
  · subst hk
    simp only [if_pos rfl]
    exact List.Nodup.append (hb k) (List.nodup_singleton _)
      (by intro y hy hz; simp at hz; subst hz; exact h hy)
  · simp only [hk, if_false]
    exact hb k

theorem Index.add_null (m : IndexMap) (id : Value) : Index.add m id .null = m := by
  unfold Index.add
  simp

theorem Index.add_eq (m : IndexMap) (id v : Value) (hv : v ≠ .null) :
    Index.add m id v = Index.addCore m id (Index.get_indexable_value v) := by
  unfold Index.add
  rw [if_neg hv]

theorem Index.remove_null (m : IndexMap) (id : Value) : Index.remove m id .null = m := by
  unfold Index.remove
  simp

theorem Index.remove_spec (m : IndexMap) (s : String) (v : Value)
    (hv : v ≠ .null) (hk : Index.get_indexable_value v ≠ "")
    (hb : (bucketOf m (Index.get_indexable_value v)).Nodup) (k : String) (x : Value) :
    x ∈ bucketOf (Index.remove m (.str s) v) k ↔
      x ∈ bucketOf m k ∧ ¬(k = Index.get_indexable_value v ∧ x = .str s) := by
  unfold Index.remove
  rw [if_neg hv, if_neg hk]
  cases hm : aGet m (Index.get_indexable_value v) with
  | none =>
      dsimp only
      have hko : bucketOf m (Index.get_indexable_value v) = [] := by simp [bucketOf, hm]
      by_cases hkk : k = Index.get_indexable_value v
      · subst hkk
        rw [hko]
        simp
      · simp [hkk]
  | some b =>
      dsimp only
      have hbo : bucketOf m (Index.get_indexable_value v) = b := by simp [bucketOf, hm]
      rw [hbo] at hb
      by_cases hmem : bucketMem b (.str s) = true
      · rw [if_pos hmem]
        by_cases hemp : (bucketRemove b (.str s)).isEmpty = true
        · rw [if_pos hemp, bucketOf_aDel]
          have hnil : bucketRemove b (.str s) = [] := List.isEmpty_iff.mp hemp
          by_cases hkk : k = Index.get_indexable_value v
          · subst hkk
            rw [if_pos rfl, hbo]
            constructor
            · intro hx
              simp at hx
            · rintro ⟨hx, hne⟩
              have hx1 : x ∈ bucketRemove b (.str s) :=
                (mem_bucketRemove_str b s hb x).mpr ⟨hx, fun he => hne ⟨rfl, he⟩⟩
              rw [hnil] at hx1
              simp at hx1
          · rw [if_neg hkk]
            simp [hkk]
        · rw [if_neg hemp, bucketOf_aSet]
          by_cases hkk : k = Index.get_indexable_value v
          · subst hkk
            rw [if_pos rfl, hbo, mem_bucketRemove_str b s hb x]
            constructor
            · rintro ⟨hx, hne⟩
              exact ⟨hx, fun hp => hne hp.2⟩
            · rintro ⟨hx, hne⟩
              exact ⟨hx, fun he => hne ⟨rfl, he⟩⟩
          · rw [if_neg hkk]
            simp [hkk]
      · have hmem' : bucketMem b (.str s) = false := by
          rw [← Bool.not_eq_true]; exact hmem
        rw [hmem']
        simp only [Bool.false_eq_true, if_false]
        have hnotin : Value.str s ∉ b := not_mem_of_not_bucketMem b s hmem'
        by_cases hemp : (b : Bucket).isEmpty = true
        · rw [if_pos hemp, bucketOf_aDel]
          have hnil : b = [] := List.isEmpty_iff.mp hemp
          by_cases hkk : k = Index.get_indexable_value v
          · subst hkk
            rw [if_pos rfl, hbo, hnil]
            simp
          · rw [if_neg hkk]
            simp [hkk]
        · rw [if_neg hemp, bucketOf_aSet]
          by_cases hkk : k = Index.get_indexable_value v
          · subst hkk
            rw [if_pos rfl, hbo]
            constructor
            · intro hx
              exact ⟨hx, fun hp => hnotin (hp.2 ▸ hx)⟩
            · exact fun hp => hp.1
          · rw [if_neg hkk]
            simp [hkk]

theorem Index.remove_bucketsOk (m : IndexMap) (id v : Value) (hb : BucketsOk m) :
    BucketsOk (Index.remove m id v) := by
  unfold Index.remove
  by_cases hv : v = .null
  · rw [if_pos hv]; exact hb
  · rw [if_neg hv]
    by_cases hk : Index.get_indexable_value v = ""
    · rw [if_pos hk]; exact hb
    · rw [if_neg hk]
      cases hm : aGet m (Index.get_indexable_value v) with
      | none => exact hb
      | some b =>
          dsimp only
          have hbo : bucketOf m (Index.get_indexable_value v) = b := by simp [bucketOf, hm]
          have hbn : b.Nodup := hbo ▸ hb (Index.get_indexable_value v)
          by_cases hmem : bucketMem b id = true
          · rw [if_pos hmem]
            by_cases hemp : (bucketRemove b id).isEmpty = true
            · rw [if_pos hemp]
              intro k
              rw [bucketOf_aDel]
              by_cases hkk : k = Index.get_indexable_value v <;> simp [hkk, hb k]
            · rw [if_neg hemp]
              intro k
              rw [bucketOf_aSet]
              by_cases hkk : k = Index.get_indexable_value v
              · simp only [hkk, if_pos rfl]
                exact bucketRemove_nodup b id hbn
              · simp only [hkk, if_false]
                exact hb k
          · have hmem' : bucketMem b id = false := by rw [← Bool.not_eq_true]; exact hmem
            rw [hmem']
            simp only [Bool.false_eq_true, if_false]
            by_cases hemp : (b : Bucket).isEmpty = true
            · rw [if_pos hemp]
              intro k
              rw [bucketOf_aDel]
              by_cases hkk : k = Index.get_indexable_value v <;> simp [hkk, hb k]
            · rw [if_neg hemp]
              intro k
              rw [bucketOf_aSet]
              by_cases hkk : k = Index.get_indexable_value v
              · simp only [hkk, if_pos rfl]
                exact hbn
              · simp only [hkk, if_false]
                exact hb k

theorem Index.update_eq_null (m : IndexMap) (id ov : Value) :
    Index.update m id ov .null = Index.remove m id ov := by
  unfold Index.update
  simp

theorem Index.update_eq (m : IndexMap) (id ov nv : Value) (hnv : nv ≠ .null)
    (hnk : Index.get_indexable_value nv ≠ "") :
    Index.update m id ov nv =
      Index.addCore (Index.remove m id ov) id (Index.get_indexable_value nv) := by
  unfold Index.update
  dsimp only
  rw [if_neg hnv, if_neg hnk]

theorem Index.buildStep_mem (field : String) (m0 : IndexMap) (d : Doc) (k : String) (x : Value) :
    x ∈ bucketOf (Index.buildStep field m0 d) k ↔
      x ∈ bucketOf m0 k ∨
        (pyGet d "_id" = x ∧ ∃ w, aGet d field = some w ∧
          Index.get_indexable_value w = k) := by
  unfold Index.buildStep
  cases hd : aGet d field with
  | none => simp
  | some v =>
      dsimp only
      rw [bucketOf_aSet]
      by_cases hk : k = Index.get_indexable_value v
      · subst hk
        rw [if_pos rfl, List.mem_append]
        constructor
        · rintro (h | h)
          · exact Or.inl h
          · simp at h
            exact Or.inr ⟨h.symm, v, rfl, rfl⟩
        · rintro (h | ⟨hid, w, hw, hn⟩)
          · exact Or.inl h
          · injection hw with hw
            subst hw
            right
            simp [hid]
      · rw [if_neg hk]
        constructor
        · exact fun h => Or.inl h
        · rintro (h | ⟨hid, w, hw, hn⟩)
          · exact h
          · injection hw with hw
            subst hw
            exact absurd hn.symm hk

theorem build_loop_mem (field : String) :
    ∀ (docs : List Doc) (m0 : IndexMap) (k : String) (x : Value),
      x ∈ bucketOf (docs.foldl (Index.buildStep field) m0) k ↔
        x ∈ bucketOf m0 k ∨
          ∃ d ∈ docs, pyGet d "_id" = x ∧ ∃ w, aGet d field = some w ∧
            Index.get_indexable_value w = k := by
  intro docs
  induction docs with
  | nil => simp
  | cons d rest ih =>
      intro m0 k x
      rw [List.foldl_cons, ih, Index.buildStep_mem]
      constructor
      · rintro ((h | h) | ⟨e, he, hrest⟩)
        · exact Or.inl h
        · exact Or.inr ⟨d, List.mem_cons_self _ _, h⟩
        · exact Or.inr ⟨e, List.mem_cons_of_mem _ he, hrest⟩
      · rintro (h | ⟨e, he, hrest⟩)
        · exact Or.inl (Or.inl h)
        · rcases List.mem_cons.mp he with h1 | h1
          · subst h1
            exact Or.inl (Or.inr hrest)
          · exact Or.inr ⟨e, h1, hrest⟩

theorem Index.buildStep_nodup (field : String) (m0 : IndexMap) (d : Doc)
    (hb : BucketsOk m0) (hnin : ∀ k, pyGet d "_id" ∉ bucketOf m0 k) :
    BucketsOk (Index.buildStep field m0 d) := by
  unfold Index.buildStep
  cases hd : aGet d field with
  | none => exact hb
  | some v =>
      dsimp only
      intro k
      rw [bucketOf_aSet]
      by_cases hk : k = Index.get_indexable_value v
      · simp only [hk, if_pos rfl]
        exact List.Nodup.append (hb _) (List.nodup_singleton _)
          (by
            intro y hy hz
            simp at hz
            subst hz
            exact hnin _ hy)
      · simp only [hk, if_false]
        exact hb k

theorem build_loop_nodup (field : String) :
    ∀ (docs : List Doc) (m0 : IndexMap), BucketsOk m0 →
      (∀ d ∈ docs, ∀ k, pyGet d "_id" ∉ bucketOf m0 k) →
      docs.Pairwise (fun a b => pyGet a "_id" ≠ pyGet b "_id") →
      BucketsOk (docs.foldl (Index.buildStep field) m0) := by
  intro docs
  induction docs with
  | nil => intro m0 hb _ _; exact hb
  | cons d rest ih =>
      intro m0 hb hnin hpw
      rw [List.foldl_cons]
      have hpc := List.pairwise_cons.mp hpw
      apply ih
      · exact Index.buildStep_nodup field m0 d hb (hnin d (List.mem_cons_self _ _))
      · intro e he k
        rw [Index.buildStep_mem]
        rintro (h1 | ⟨hid, _⟩)
        · exact hnin e (List.mem_cons_of_mem _ he) k h1
        · exact hpc.1 e he hid
      · exact hpc.2

theorem docsOk_pairwise_pyGet {docs : List Doc} (hdo : DocsOk docs) :
    docs.Pairwise (fun a b => pyGet a "_id" ≠ pyGet b "_id") := by
  have h := hdo.nodup
  apply List.Pairwise.imp_of_mem _ h
  intro a b ha hb hne hp
  obtain ⟨s1, _, hs1⟩ := hdo.ids a ha
  obtain ⟨s2, _, hs2⟩ := hdo.ids b hb
  apply hne
  rw [hs1, hs2]
  rw [pyGet_eq_of_aGet a _ _ hs1, pyGet_eq_of_aGet b _ _ hs2] at hp
  rw [hp]

/-!
Lemmas about the update applier (`Collection.applyUpdate` and its three
branches) and about replacing one document of a well-formed list.
-/

theorem goodVal_int (n : Int) : goodVal (.int n) = true := by
  simp [goodVal]

theorem goodVal_bool (b : Bool) : goodVal (.bool b) = true := by
  simp [goodVal]

theorem goodVal_str (s : String) (h : s ≠ "") : goodVal (.str s) = true := by
  simp [goodVal, h]

theorem vdHasKey_false_head {l : String} {w : Value} {rest : VDict} {k : String}
    (h : vdHasKey (.cons l w rest) k = false) : l ≠ k ∧ vdHasKey rest k = false := by
  unfold vdHasKey at h
  rcases Bool.or_eq_false_iff.mp h with ⟨h1, h2⟩
  exact ⟨by simpa using h1, h2⟩

theorem vdAll_head {p : String → Value → Bool} {l : String} {w : Value} {rest : VDict}
    (h : vdAll p (.cons l w rest) = true) : p l w = true ∧ vdAll p rest = true := by
  unfold vdAll at h
  exact Bool.and_eq_true_iff.mp h

theorem applySet_aGet_not_key :
    ∀ (s : VDict) (doc : Doc) (k : String), vdHasKey s k = false →
      aGet (Collection.applySet doc s) k = aGet doc k
  | .nil, doc, k, _ => rfl
  | .cons l v rest, doc, k, h => by
      obtain ⟨h1, h2⟩ := vdHasKey_false_head h
      unfold Collection.applySet
      rw [applySet_aGet_not_key rest (aSet doc l v) k h2, aGet_aSet_ne doc l k v (Ne.symm h1)]

theorem applySet_mem :
    ∀ (s : VDict) (doc : Doc), ∀ kv ∈ Collection.applySet doc s, kv ∈ doc ∨ vdMemVal s kv.2
  | .nil, doc, kv, h => Or.inl h
  | .cons l v rest, doc, kv, h => by
      unfold Collection.applySet at h
      rcases applySet_mem rest (aSet doc l v) kv h with h1 | h1
      · rcases mem_aSet doc l v kv h1 with h2 | h2
        · exact Or.inl h2
        · right; left; rw [h2]
      · right; right; exact h1

theorem vdAll_not_key (p : String → Value → Bool) (k0 : String) :
    ∀ (s : VDict), vdAll (fun k v => !(k == k0) && p k v) s = true →
      vdHasKey s k0 = false
  | .nil, _ => rfl
  | .cons l v rest, h => by
      obtain ⟨h1, h2⟩ := vdAll_head h
      rcases Bool.and_eq_true_iff.mp h1 with ⟨h3, _⟩
      unfold vdHasKey
      rw [vdAll_not_key p k0 rest h2]
      simpa using h3

theorem vdAll_memVal (p : String → Value → Bool) :
    ∀ (s : VDict), vdAll p s = true → ∀ v, vdMemVal s v → ∃ k, p k v = true
  | .nil, _, v, hv => absurd hv (by simp [vdMemVal])
  | .cons l w rest, h, v, hv => by
      obtain ⟨h1, h2⟩ := vdAll_head h
      unfold vdMemVal at hv
      rcases hv with hv | hv
      · exact ⟨l, hv ▸ h1⟩
      · exact vdAll_memVal p rest h2 v hv

theorem applyInc_aGet_not_key :
    ∀ (s : VDict) (doc : Doc) (k : String), vdHasKey s k = false →
      aGet (Collection.applyInc doc s) k = aGet doc k
  | .nil, doc, k, _ => rfl
  | .cons l v rest, doc, k, h => by
      obtain ⟨h1, h2⟩ := vdHasKey_false_head h
      unfold Collection.applyInc
      rw [applyInc_aGet_not_key rest _ k h2, aGet_aSet_ne _ l k _ (Ne.symm h1)]

theorem applyInc_mem :
    ∀ (s : VDict), vdAll (fun k v => !(k == "_id") && isNum v) s = true →
      ∀ (doc : Doc), ∀ kv ∈ Collection.applyInc doc s, kv ∈ doc ∨ goodVal kv.2 = true
  | .nil, _, doc, kv, h => Or.inl h
  | .cons l v rest, hnum, doc, kv, h => by
      obtain ⟨h1, h2⟩ := vdAll_head hnum
      rcases Bool.and_eq_true_iff.mp h1 with ⟨_, hv⟩
      unfold Collection.applyInc at h
      rcases applyInc_mem rest h2 _ kv h with h3 | h3
      · rcases mem_aSet doc l _ kv h3 with h4 | h4
        · exact Or.inl h4
        · right
          rw [h4]
          rcases hg : aGet doc l with _ | w
          · cases v with
            | int n => simp [hg, goodVal_int]
            | bool b => simp [hg, goodVal_bool]
            | null => simp [isNum] at hv
            | str t => simp [isNum] at hv
            | list t => simp [isNum] at hv
            | dict t => simp [isNum] at hv
          · cases v with
            | int n =>
                cases w with
                | int m => simp [hg, goodVal_int]
                | bool a => simp [hg, goodVal_int]
                | null => simp [hg, goodVal_int]
                | str t => simp [hg, goodVal_int]
                | list t => simp [hg, goodVal_int]
                | dict t => simp [hg, goodVal_int]
            | bool b =>
                cases w with
                | int m => simp [hg, goodVal_int]
                | bool a => simp [hg, goodVal_int]
                | null => simp [hg, goodVal_bool]
                | str t => simp [hg, goodVal_bool]
                | list t => simp [hg, goodVal_bool]
                | dict t => simp [hg, goodVal_bool]
            | null => simp [isNum] at hv
            | str t => simp [isNum] at hv
            | list t => simp [isNum] at hv
            | dict t => simp [isNum] at hv
      · exact Or.inr h3

theorem dictMerge_aGet_not_key (upd : Doc) :
    ∀ (doc : Doc) (k : String), aGet upd k = none →
      aGet (Collection.dictMerge doc upd) k = aGet doc k := by
  induction upd with
  | nil => intro doc k _; rfl
  | cons p rest ih =>
      obtain ⟨l, v⟩ := p
      intro doc k h
      unfold Collection.dictMerge
      rw [List.foldl_cons]
      have hne : l ≠ k := by
        intro he
        rw [show aGet ((l, v) :: rest) k = if l = k then some v else aGet rest k from rfl,
          if_pos he] at h
        exact Option.noConfusion h
      have hrest : aGet rest k = none := by
        rw [show aGet ((l, v) :: rest) k = if l = k then some v else aGet rest k from rfl,
          if_neg hne] at h
        exact h
      have h2 := ih (aSet doc l v) k hrest
      unfold Collection.dictMerge at h2
      rw [h2, aGet_aSet_ne doc l k v (Ne.symm hne)]

theorem dictMerge_aGet_key (upd : Doc) :
    ∀ (doc : Doc) (k : String) (v : Value), (upd.map Prod.fst).Nodup →
      aGet upd k = some v →
      aGet (Collection.dictMerge doc upd) k = some v := by
  induction upd with
  | nil => intro doc k v _ h; exact absurd h (by simp [aGet])
  | cons p rest ih =>
      obtain ⟨l, w⟩ := p
      intro doc k v hnd h
      have hnd' : (l :: rest.map Prod.fst).Nodup := by simpa using hnd
      have hnd2 := List.nodup_cons.mp hnd'
      unfold Collection.dictMerge
      rw [List.foldl_cons]
      by_cases hl : l = k
      · subst hl
        rw [show aGet ((l, w) :: rest) l = if l = l then some w else aGet rest l from rfl,
          if_pos rfl] at h
        injection h with h
        subst h
        have hrest : aGet rest l = none := by
          cases hg : aGet rest l with
          | none => rfl
          | some z =>
              exact absurd (List.mem_map.mpr ⟨(l, z), aGet_mem rest l z hg, rfl⟩) hnd2.1
        have h2 := dictMerge_aGet_not_key rest (aSet doc l w) l hrest
        unfold Collection.dictMerge at h2
        rw [h2, aGet_aSet_self]
      · rw [show aGet ((l, w) :: rest) k = if l = k then some w else aGet rest k from rfl,
          if_neg hl] at h
        exact ih (aSet doc l w) k v hnd2.2 h

theorem dictMerge_mem (upd : Doc) :
    ∀ (doc : Doc), ∀ kv ∈ Collection.dictMerge doc upd,
      kv ∈ doc ∨ kv.2 ∈ upd.map Prod.snd := by
  induction upd with
  | nil => intro doc kv h; exact Or.inl h
  | cons p rest ih =>
      obtain ⟨l, v⟩ := p
      intro doc kv h
      unfold Collection.dictMerge at h
      rw [List.foldl_cons] at h
      have h0 : kv ∈ Collection.dictMerge (aSet doc l v) rest := h
      rcases ih (aSet doc l v) kv h0 with h1 | h1
      · rcases mem_aSet doc l v kv h1 with h2 | h2
        · exact Or.inl h2
        · right; rw [h2]; simp
      · right; simp at h1 ⊢; tauto

theorem applyUpdate_updated (d upd : Doc) (now : String) :
    aGet (Collection.applyUpdate d upd now) "_updated_at" = some (.str now) := by
  unfold Collection.applyUpdate
  dsimp only
  exact aGet_aSet_self _ _ _

theorem applyUpdate_id (d upd : Doc) (now : String) (hgu : goodUpd upd = true)
    (w0 : Value) (hid : aGet d "_id" = some w0) :
    aGet (Collection.applyUpdate d upd now) "_id" = some w0 := by
  unfold Collection.applyUpdate
  dsimp only
  rw [aGet_aSet_ne _ _ _ _ (by decide)]
  unfold goodUpd at hgu
  by_cases hs : hasKey upd "$set" = true
  · rw [if_pos hs] at hgu ⊢
    cases hv : aGet upd "$set" with
    | none => rw [hv] at hgu; simp at hgu
    | some vv =>
        rw [hv] at hgu
        cases vv with
        | dict sd =>
            show aGet (Collection.applySet d sd) "_id" = some w0
            rw [applySet_aGet_not_key sd d "_id" (vdAll_not_key _ _ sd hgu)]
            exact hid
        | null => simp at hgu
        | bool b => simp at hgu
        | int n => simp at hgu
        | str t => simp at hgu
        | list t => simp at hgu
  · rw [if_neg hs] at hgu ⊢
    by_cases hi : hasKey upd "$inc" = true
    · rw [if_pos hi] at hgu ⊢
      cases hv : aGet upd "$inc" with
      | none => rw [hv] at hgu; simp at hgu
      | some vv =>
          rw [hv] at hgu
          cases vv with
          | dict sd =>
              show aGet (Collection.applyInc d sd) "_id" = some w0
              rw [applyInc_aGet_not_key sd d "_id" (vdAll_not_key _ _ sd hgu)]
              exact hid
          | null => simp at hgu
          | bool b => simp at hgu
          | int n => simp at hgu
          | str t => simp at hgu
          | list t => simp at hgu
    · rw [if_neg hi] at hgu ⊢
      rw [aGet_aSet_self, pyGet_eq_of_aGet d _ _ hid]

theorem applyUpdate_vals (d upd : Doc) (now : String) (hgu : goodUpd upd = true)
    (hd : ∀ kv ∈ d, goodVal kv.2 = true) (hnow : now ≠ "")
    (hidg : goodVal (pyGet d "_id") = true) :
    ∀ kv ∈ Collection.applyUpdate d upd now, goodVal kv.2 = true := by
  unfold Collection.applyUpdate
  dsimp only
  unfold goodUpd at hgu
  have hfin : ∀ (d1 : Doc), (∀ kv ∈ d1, goodVal kv.2 = true) →
      ∀ kv ∈ aSet d1 "_updated_at" (Value.str now), goodVal kv.2 = true := by
    intro d1 h1 kv hkv
    rcases mem_aSet _ _ _ kv hkv with h2 | h2
    · exact h1 kv h2
    · rw [h2]
      exact goodVal_str now hnow
  by_cases hs : hasKey upd "$set" = true
  · rw [if_pos hs] at hgu ⊢
    cases hv : aGet upd "$set" with
    | none => rw [hv] at hgu; simp at hgu
    | some vv =>
        rw [hv] at hgu
        cases vv with
        | dict sd =>
            apply hfin
            intro kv hkv
            rcases applySet_mem sd d kv hkv with h1 | h1
            · exact hd kv h1
            · obtain ⟨k, hk⟩ := vdAll_memVal _ sd hgu kv.2 h1
              exact (Bool.and_eq_true_iff.mp hk).2
        | null => simp at hgu
        | bool b => simp at hgu
        | int n => simp at hgu
        | str t => simp at hgu
        | list t => simp at hgu
  · rw [if_neg hs] at hgu ⊢
    by_cases hi : hasKey upd "$inc" = true
    · rw [if_pos hi] at hgu ⊢
      cases hv : aGet upd "$inc" with
      | none => rw [hv] at hgu; simp at hgu
      | some vv =>
          rw [hv] at hgu
          cases vv with
          | dict sd =>
              apply hfin
              intro kv hkv
              rcases applyInc_mem sd hgu d kv hkv with h1 | h1
              · exact hd kv h1
              · exact h1
          | null => simp at hgu
          | bool b => simp at hgu
          | int n => simp at hgu
          | str t => simp at hgu
          | list t => simp at hgu
    · rw [if_neg hi] at hgu ⊢
      apply hfin
      intro kv hkv
      rcases mem_aSet _ _ _ kv hkv with h1 | h1
      · rcases dictMerge_mem upd d kv h1 with h2 | h2
        · exact hd kv h2
        · rcases List.mem_map.mp h2 with ⟨kv0, hkv0, he⟩
          rw [← he]
          exact List.all_eq_true.mp hgu kv0 hkv0
      · rw [h1]
        exact hidg

theorem applyUpdate_replace_id (d upd : Doc) (now : String)
    (hs : hasKey upd "$set" = false) (hi : hasKey upd "$inc" = false)
    (w0 : Value) (hid : aGet d "_id" = some w0) :
    aGet (Collection.applyUpdate d upd now) "_id" = some w0 := by
  unfold Collection.applyUpdate
  dsimp only
  rw [hs, hi]
  simp only [Bool.false_eq_true, if_false]
  rw [aGet_aSet_ne _ _ _ _ (by decide), aGet_aSet_self, pyGet_eq_of_aGet d _ _ hid]

theorem applyUpdate_replace_aGet (d upd : Doc) (now : String)
    (hs : hasKey upd "$set" = false) (hi : hasKey upd "$inc" = false)
    (hnd : (upd.map Prod.fst).Nodup) (k : String)
    (hk1 : k ≠ "_id") (hk2 : k ≠ "_updated_at") :
    aGet (Collection.applyUpdate d upd now) k =
      match aGet upd k with
      | some v => some v
      | none => aGet d k := by
  unfold Collection.applyUpdate
  dsimp only
  rw [hs, hi]
  simp only [Bool.false_eq_true, if_false]
  rw [aGet_aSet_ne _ _ _ _ hk2, aGet_aSet_ne _ _ _ _ hk1]
  cases hu : aGet upd k with
  | some v => exact dictMerge_aGet_key upd d k v hnd hu
  | none => exact dictMerge_aGet_not_key upd d k hu

theorem docsOk_append_single {docs : List Doc} {dstar : Doc}
    (hdo : DocsOk docs) (s : String) (hs : s ≠ "")
    (hid : aGet dstar "_id" = some (.str s))
    (hfresh : ∀ d ∈ docs, aGet d "_id" ≠ some (.str s))
    (hvals : ∀ kv ∈ dstar, goodVal kv.2 = true) :
    DocsOk (docs ++ [dstar]) := by
  constructor
  · intro d hd
    rcases List.mem_append.mp hd with h | h
    · exact hdo.ids d h
    · simp at h
      subst h
      exact ⟨s, hs, hid⟩
  · rw [List.pairwise_append]
    refine ⟨hdo.nodup, List.pairwise_singleton _ _, ?_⟩
    intro a ha b hb
    simp at hb
    subst hb
    rw [hid]
    exact hfresh a ha
  · intro d hd
    rcases List.mem_append.mp hd with h | h
    · exact hdo.vals d h
    · simp at h
      subst h
      exact hvals

theorem docsOk_replace {A B : List Doc} {d d1 : Doc}
    (hdo : DocsOk (A ++ d :: B))
    (hid : aGet d1 "_id" = aGet d "_id")
    (hvals1 : ∀ kv ∈ d1, goodVal kv.2 = true) :
    DocsOk (A ++ d1 :: B) := by
  have hd : d ∈ A ++ d :: B := by simp
  obtain ⟨s, hs, hsid⟩ := hdo.ids d hd
  constructor
  · intro e he
    rcases List.mem_append.mp he with h | h
    · exact hdo.ids e (List.mem_append_left _ h)
    · rcases List.mem_cons.mp h with h1 | h1
      · subst h1
        exact ⟨s, hs, by rw [hid, hsid]⟩
      · exact hdo.ids e (List.mem_append_right _ (List.mem_cons_of_mem _ h1))
  · have hp := hdo.nodup
    rw [List.pairwise_append] at hp ⊢
    obtain ⟨hpA, hpdB, hcross⟩ := hp
    have hpdB2 := List.pairwise_cons.mp hpdB
    refine ⟨hpA, List.pairwise_cons.mpr ⟨?_, hpdB2.2⟩, ?_⟩
    · intro b hb
      rw [hid]
      exact hpdB2.1 b hb
    · intro a ha b hb
      rcases List.mem_cons.mp hb with h1 | h1
      · subst h1
        rw [hid]
        exact hcross a ha d (List.mem_cons_self _ _)
      · exact hcross a ha b (List.mem_cons_of_mem _ h1)
  · intro e he
    rcases List.mem_append.mp he with h | h
    · exact hdo.vals e (List.mem_append_left _ h)
    · rcases List.mem_cons.mp h with h1 | h1
      · subst h1
        exact hvals1
      · exact hdo.vals e (List.mem_append_right _ (List.mem_cons_of_mem _ h1))

theorem docsOk_sublist {docs docs2 : List Doc} (hdo : DocsOk docs)
    (hsub : docs2.Sublist docs) : DocsOk docs2 := by
  constructor
  · intro d hd
    exact hdo.ids d (hsub.mem hd)
  · exact hdo.nodup.sublist hsub
  · intro d hd
    exact hdo.vals d (hsub.mem hd)

theorem mem_add_to_indices (ix : Indices) (id : Value) (document : Doc) :
    ∀ fm' ∈ IndexManager.add_to_indices ix id document,
      ∃ fm ∈ ix, fm' = (fm.1,
        match aGet document fm.1 with
        | some v => Index.add fm.2 id v
        | none => fm.2) := by
  intro fm' h
  rcases List.mem_map.mp h with ⟨fm, hfm, he⟩
  exact ⟨fm, hfm, he.symm⟩

theorem mem_update_indices (ix : Indices) (id : Value) (old_doc new_doc : Doc) :
    ∀ fm' ∈ IndexManager.update_indices ix id old_doc new_doc,
      ∃ fm ∈ ix, fm' = (fm.1,
        if pyEq (pyGet old_doc fm.1) (pyGet new_doc fm.1) = true then fm.2
        else Index.update fm.2 id (pyGet old_doc fm.1) (pyGet new_doc fm.1)) := by
  intro fm' h
  rcases List.mem_map.mp h with ⟨fm, hfm, he⟩
  exact ⟨fm, hfm, he.symm⟩

theorem mem_remove_from_indices (ix : Indices) (id : Value) (document : Doc) :
    ∀ fm' ∈ IndexManager.remove_from_indices ix id document,
      ∃ fm ∈ ix, fm' = (fm.1,
        match aGet document fm.1 with
        | some v => Index.remove fm.2 id v
        | none => fm.2) := by
  intro fm' h
  rcases List.mem_map.mp h with ⟨fm, hfm, he⟩
  exact ⟨fm, hfm, he.symm⟩

/-!
Index/collection invariant preservation, one document at a time.
-/

theorem IdxOk_insert {docs : List Doc} {dstar : Doc} {f : String} {m : IndexMap} {s : String}
    (hio : IdxOk docs f m) (hbo : BucketsOk m) (hdo : DocsOk (docs ++ [dstar]))
    (hid : aGet dstar "_id" = some (.str s)) :
    IdxOk (docs ++ [dstar]) f
      (match aGet dstar f with
       | some v => Index.add m (.str s) v
       | none => m) ∧
    BucketsOk
      (match aGet dstar f with
       | some v => Index.add m (.str s) v
       | none => m) := by
  have hfresh : ∀ k, Value.str s ∉ bucketOf m k := by
    intro k hmem
    rcases (hio k (.str s)).mp hmem with ⟨e, he, hide, w, hw, hn⟩
    have hp := hdo.nodup
    rw [List.pairwise_append] at hp
    exact hp.2.2 e he dstar (by simp) (by rw [hide, hid])
  cases hd : aGet dstar f with
  | none =>
      dsimp only
      constructor
      · intro k x
        rw [hio k x]
        constructor
        · rintro ⟨e, he, hrest⟩
          exact ⟨e, List.mem_append_left _ he, hrest⟩
        · rintro ⟨e, he, hide, w, hw, hn⟩
          rcases List.mem_append.mp he with h1 | h1
          · exact ⟨e, h1, hide, w, hw, hn⟩
          · simp at h1
            subst h1
            rw [hd] at hw
            exact absurd hw (by simp)
      · exact hbo
  | some v =>
      dsimp only
      have hvgood : goodVal v = true :=
        hdo.vals dstar (by simp) (f, v) (aGet_mem _ _ _ hd)
      have hvn : v ≠ .null := ((goodVal_iff v).mp hvgood).1
      rw [Index.add_eq m _ v hvn]
      have hnotin : Value.str s ∉ bucketOf m (Index.get_indexable_value v) := hfresh _
      constructor
      · intro k x
        rw [Index.addCore_spec m s _ hnotin k x, hio k x]
        constructor
        · rintro (⟨e, he, hrest⟩ | ⟨hk, hx⟩)
          · exact ⟨e, List.mem_append_left _ he, hrest⟩
          · exact ⟨dstar, by simp, by rw [hid, hx], v, hd, hk.symm⟩
        · rintro ⟨e, he, hide, w, hw, hn⟩
          rcases List.mem_append.mp he with h1 | h1
          · exact Or.inl ⟨e, h1, hide, w, hw, hn⟩
          · simp at h1
            subst h1
            rw [hd] at hw
            injection hw with hw
            subst hw
            rw [hid] at hide
            injection hide with hide
            exact Or.inr ⟨hn.symm, hide.symm⟩
      · exact Index.addCore_bucketsOk m s _ hbo hnotin

theorem IdxOk_remove_doc {docs docs2 : List Doc} {d : Doc} {f : String} {m : IndexMap}
    {s : String}
    (hmem_iff : ∀ e, e ∈ docs ↔ e ∈ docs2 ∨ e = d)
    (hdnotin : d ∉ docs2)
    (hio : IdxOk docs f m) (hbo : BucketsOk m) (hdo : DocsOk docs)
    (hdin : d ∈ docs)
    (hid : aGet d "_id" = some (.str s)) :
    IdxOk docs2 f
      (match aGet d f with
       | some v => Index.remove m (.str s) v
       | none => m) := by
  have huniq : ∀ e ∈ docs, aGet e "_id" = some (.str s) → e = d := fun e he hh =>
    eq_of_pairwise_ne (fun x => aGet x "_id") docs hdo.nodup e he d hdin
      (by show aGet e "_id" = aGet d "_id"; rw [hh, hid])
  cases hd : aGet d f with
  | none =>
      dsimp only
      intro k x
      rw [hio k x]
      constructor
      · rintro ⟨e, he, hide, w, hw, hn⟩
        rcases (hmem_iff e).mp he with h1 | h1
        · exact ⟨e, h1, hide, w, hw, hn⟩
        · rw [h1, hd] at hw
          exact absurd hw (by simp)
      · rintro ⟨e, he, hrest⟩
        exact ⟨e, (hmem_iff e).mpr (Or.inl he), hrest⟩
  | some v =>
      dsimp only
      have hvgood : goodVal v = true := hdo.vals d hdin (f, v) (aGet_mem _ _ _ hd)
      have hvn : v ≠ .null := ((goodVal_iff v).mp hvgood).1
      have hvk : Index.get_indexable_value v ≠ "" :=
        get_indexable_value_ne_empty v ((goodVal_iff v).mp hvgood).2
      intro k x
      rw [Index.remove_spec m s v hvn hvk (hbo _) k x, hio k x]
      constructor
      · rintro ⟨⟨e, he, hide, w, hw, hn⟩, hnot⟩
        rcases (hmem_iff e).mp he with h1 | h1
        · exact ⟨e, h1, hide, w, hw, hn⟩
        · rw [h1] at hw hide
          rw [hd] at hw
          injection hw with hw
          subst hw
          rw [hid] at hide
          injection hide with h2
          exact absurd ⟨hn.symm, h2.symm⟩ hnot
      · rintro ⟨e, he, hide, w, hw, hn⟩
        constructor
        · exact ⟨e, (hmem_iff e).mpr (Or.inl he), hide, w, hw, hn⟩
        · rintro ⟨hk, hx⟩
          subst hx
          have he2 : e = d := huniq e ((hmem_iff e).mpr (Or.inl he)) hide
          subst he2
          exact hdnotin he

theorem IdxOk_update_doc {A B : List Doc} {d d1 : Doc} {f : String} {m : IndexMap} {s : String}
    (hio : IdxOk (A ++ d :: B) f m) (hbo : BucketsOk m) (hdo : DocsOk (A ++ d :: B))
    (hdo1 : DocsOk (A ++ d1 :: B))
    (hid : aGet d "_id" = some (.str s)) (hid1 : aGet d1 "_id" = some (.str s))
    (hcompat : normCompat (pyGet d f) (pyGet d1 f) = true) :
    IdxOk (A ++ d1 :: B) f
      (if pyEq (pyGet d f) (pyGet d1 f) = true then m
       else Index.update m (.str s) (pyGet d f) (pyGet d1 f)) ∧
    BucketsOk
      (if pyEq (pyGet d f) (pyGet d1 f) = true then m
       else Index.update m (.str s) (pyGet d f) (pyGet d1 f)) := by
  have hdin : d ∈ A ++ d :: B := by simp
  have hd1in : d1 ∈ A ++ d1 :: B := by simp
  have huniq : ∀ e ∈ A ++ d :: B, aGet e "_id" = some (.str s) → e = d := fun e he hh =>
    eq_of_pairwise_ne (fun x => aGet x "_id") _ hdo.nodup e he d hdin
      (by show aGet e "_id" = aGet d "_id"; rw [hh, hid])
  have huniq1 : ∀ e ∈ A ++ d1 :: B, aGet e "_id" = some (.str s) → e = d1 := fun e he hh =>
    eq_of_pairwise_ne (fun x => aGet x "_id") _ hdo1.nodup e he d1 hd1in
      (by show aGet e "_id" = aGet d1 "_id"; rw [hh, hid1])
  have hmemAB : ∀ e, e ∈ A ++ d :: B ↔ (e ∈ A ++ B ∨ e = d) := by
    intro e
    simp [List.mem_append, List.mem_cons]
    tauto
  have hmemAB1 : ∀ e, e ∈ A ++ d1 :: B ↔ (e ∈ A ++ B ∨ e = d1) := by
    intro e
    simp [List.mem_append, List.mem_cons]
    tauto
  have hABnotd : ∀ e ∈ A ++ B, aGet e "_id" = some (.str s) → False := by
    intro e he hh
    have he2 : e ∈ A ++ d :: B := (hmemAB e).mpr (Or.inl he)
    have := huniq e he2 hh
    subst this
    have hp := hdo.nodup
    rw [List.pairwise_append] at hp
    rcases List.mem_append.mp he with h1 | h1
    · exact hp.2.2 e h1 e (List.mem_cons_self _ _) rfl
    · have := List.pairwise_cons.mp hp.2.1
      exact this.1 e h1 rfl
  -- case analysis on `d`'s value on the field
  have hdval : pyGet d f = .null ∨
      (aGet d f = some (pyGet d f) ∧ pyGet d f ≠ .null ∧ goodVal (pyGet d f) = true) := by
    by_cases h : pyGet d f = .null
    · exact Or.inl h
    · right
      have ha := aGet_of_pyGet_ne_null d f h
      exact ⟨ha, h, hdo.vals d hdin (f, pyGet d f) (aGet_mem _ _ _ ha)⟩
  have hd1val : pyGet d1 f = .null ∨
      (aGet d1 f = some (pyGet d1 f) ∧ pyGet d1 f ≠ .null ∧ goodVal (pyGet d1 f) = true) := by
    by_cases h : pyGet d1 f = .null
    · exact Or.inl h
    · right
      have ha := aGet_of_pyGet_ne_null d1 f h
      exact ⟨ha, h, hdo1.vals d1 hd1in (f, pyGet d1 f) (aGet_mem _ _ _ ha)⟩
  -- the null/absent conflation: when pyGet is null, aGet is none
  have hdnone : pyGet d f = .null → aGet d f = none := by
    intro h
    cases hg : aGet d f with
    | none => rfl
    | some w =>
        have : w = .null := by rw [← pyGet_eq_of_aGet d f w hg, h]
        subst this
        have := hdo.vals d hdin (f, .null) (aGet_mem _ _ _ hg)
        simp [goodVal] at this
  have hd1none : pyGet d1 f = .null → aGet d1 f = none := by
    intro h
    cases hg : aGet d1 f with
    | none => rfl
    | some w =>
        have : w = .null := by rw [← pyGet_eq_of_aGet d1 f w hg, h]
        subst this
        have := hdo1.vals d1 hd1in (f, .null) (aGet_mem _ _ _ hg)
        simp [goodVal] at this
  by_cases heq : pyEq (pyGet d f) (pyGet d1 f) = true
  · rw [if_pos heq]
    have hnorm : Index.get_indexable_value (pyGet d f) =
        Index.get_indexable_value (pyGet d1 f) := by
      unfold normCompat at hcompat
      rw [heq] at hcompat
      simp at hcompat
      exact hcompat
    refine ⟨?_, hbo⟩
    intro k x
    rw [hio k x]
    constructor
    · rintro ⟨e, he, hide, w, hw, hn⟩
      rcases (hmemAB e).mp he with h1 | h1
      · exact ⟨e, (hmemAB1 e).mpr (Or.inl h1), hide, w, hw, hn⟩
      · subst h1
        -- the witness is d itself; transfer to d1
        rcases hdval with hnull | ⟨ha, hnn, hg⟩
        · rw [hdnone hnull] at hw
          exact absurd hw (by simp)
        · rw [ha] at hw
          injection hw with hw
          rcases hd1val with hnull1 | ⟨ha1, hnn1, hg1⟩
          · rw [hnull1] at heq
            exact absurd ((pyEq_null_right _).mp heq) hnn
          · refine ⟨d1, hd1in, by rw [hid1, ← hid, hide], pyGet d1 f, ha1, ?_⟩
            rw [← hnorm, ← hn, hw]
    · rintro ⟨e, he, hide, w, hw, hn⟩
      rcases (hmemAB1 e).mp he with h1 | h1
      · exact ⟨e, (hmemAB e).mpr (Or.inl h1), hide, w, hw, hn⟩
      · subst h1
        rcases hd1val with hnull1 | ⟨ha1, hnn1, hg1⟩
        · rw [hd1none hnull1] at hw
          exact absurd hw (by simp)
        · rw [ha1] at hw
          injection hw with hw
          rcases hdval with hnull | ⟨ha, hnn, hg⟩
          · rw [hnull] at heq
            exact absurd ((pyEq_null_left _).mp heq) hnn1
          · refine ⟨d, hdin, by rw [hid, ← hid1, hide], pyGet d f, ha, ?_⟩
            rw [hnorm, ← hn, hw]
  · rw [if_neg heq]
    -- removal phase: `m1` holds everything of `m` except d's own entry
    have hm1spec : ∀ k x,
        x ∈ bucketOf (Index.remove m (.str s) (pyGet d f)) k ↔
          (x ∈ bucketOf m k ∧ ¬(x = .str s ∧ ∃ w, aGet d f = some w ∧
            Index.get_indexable_value w = k)) := by
      rcases hdval with hnull | ⟨ha, hnn, hg⟩
      · intro k x
        rw [hnull, Index.remove_null]
        constructor
        · intro hx
          refine ⟨hx, ?_⟩
          rintro ⟨hxs, w, hw, hn⟩
          rw [hdnone hnull] at hw
          exact absurd hw (by simp)
        · exact fun hp => hp.1
      · intro k x
        rw [Index.remove_spec m s (pyGet d f) hnn
          (get_indexable_value_ne_empty _ ((goodVal_iff _).mp hg).2) (hbo _) k x]
        constructor
        · rintro ⟨hx, hnot⟩
          refine ⟨hx, ?_⟩
          rintro ⟨hxs, w, hw, hn⟩
          rw [ha] at hw
          injection hw with hw
          exact hnot ⟨by rw [← hn, hw], hxs⟩
        · rintro ⟨hx, hnot⟩
          refine ⟨hx, ?_⟩
          rintro ⟨hk, hxs⟩
          exact hnot ⟨hxs, pyGet d f, ha, hk.symm⟩
    have hm1notin : ∀ k, Value.str s ∉ bucketOf (Index.remove m (.str s) (pyGet d f)) k := by
      intro k hmem
      rcases (hm1spec k (.str s)).mp hmem with ⟨hx, hnot⟩
      rcases (hio k (.str s)).mp hx with ⟨e, he, hide, w, hw, hn⟩
      have he2 : e = d := huniq e he hide
      subst he2
      exact hnot ⟨rfl, w, hw, hn⟩
    have hbo1 : BucketsOk (Index.remove m (.str s) (pyGet d f)) :=
      Index.remove_bucketsOk m _ _ hbo
    -- the shared characterisation of the target index state
    have htarget : ∀ k x,
        x ∈ bucketOf (Index.update m (.str s) (pyGet d f) (pyGet d1 f)) k ↔
          ((x ∈ bucketOf m k ∧ ¬(x = .str s ∧ ∃ w, aGet d f = some w ∧
            Index.get_indexable_value w = k)) ∨
            (x = .str s ∧ ∃ w, aGet d1 f = some w ∧
              Index.get_indexable_value w = k)) := by
      rcases hd1val with hnull1 | ⟨ha1, hnn1, hg1⟩
      · intro k x
        rw [hnull1, Index.update_eq_null, hm1spec k x]
        constructor
        · exact fun h => Or.inl h
        · rintro (h | ⟨hxs, w, hw, hn⟩)
          · exact h
          · rw [hd1none hnull1] at hw
            exact absurd hw (by simp)
      · intro k x
        rw [Index.update_eq m (.str s) _ _ hnn1
          (get_indexable_value_ne_empty _ ((goodVal_iff _).mp hg1).2),
          Index.addCore_spec _ s _ (hm1notin _) k x, hm1spec k x]
        constructor
        · rintro (h | ⟨hk, hx⟩)
          · exact Or.inl h
          · exact Or.inr ⟨hx, pyGet d1 f, ha1, hk.symm⟩
        · rintro (h | ⟨hxs, w, hw, hn⟩)
          · exact Or.inl h
          · rw [ha1] at hw
            injection hw with hw
            exact Or.inr ⟨by rw [← hn, hw], hxs⟩
    constructor
    · intro k x
      rw [htarget k x]
      constructor
      · rintro (⟨hx, hnot⟩ | ⟨hxs, w, hw, hn⟩)
        · rcases (hio k x).mp hx with ⟨e, he, hide, w, hw, hn⟩
          rcases (hmemAB e).mp he with h1 | h1
          · exact ⟨e, (hmemAB1 e).mpr (Or.inl h1), hide, w, hw, hn⟩
          · subst h1
            have hxs : x = .str s := by
              rw [hid] at hide
              injection hide with h2
              exact h2.symm
            exact absurd ⟨hxs, w, hw, hn⟩ hnot
        · exact ⟨d1, hd1in, by rw [hid1, hxs], w, hw, hn⟩
      · rintro ⟨e, he, hide, w, hw, hn⟩
        rcases (hmemAB1 e).mp he with h1 | h1
        · left
          refine ⟨(hio k x).mpr ⟨e, (hmemAB e).mpr (Or.inl h1), hide, w, hw, hn⟩, ?_⟩
          rintro ⟨hxs, w2, hw2, hn2⟩
          subst hxs
          exact hABnotd e h1 hide
        · subst h1
          right
          refine ⟨?_, w, hw, hn⟩
          rw [hid1] at hide
          injection hide with h2
          exact h2.symm
    · rcases hd1val with hnull1 | ⟨ha1, hnn1, hg1⟩
      · rw [hnull1, Index.update_eq_null]
        exact hbo1
      · rw [Index.update_eq m (.str s) _ _ hnn1
          (get_indexable_value_ne_empty _ ((goodVal_iff _).mp hg1).2)]
        exact Index.addCore_bucketsOk _ s _ hbo1 (hm1notin _)

/-!
Operation-level invariant preservation.
-/

theorem IdxOk_mem_congr {docs docs2 : List Doc} {f : String} {m : IndexMap}
    (h : ∀ e, e ∈ docs ↔ e ∈ docs2) (hio : IdxOk docs f m) : IdxOk docs2 f m := by
  intro k x
  rw [hio k x]
  constructor
  · rintro ⟨e, he, hrest⟩
    exact ⟨e, (h e).mp he, hrest⟩
  · rintro ⟨e, he, hrest⟩
    exact ⟨e, (h e).mpr he, hrest⟩

theorem docsOk_mem_congr {docs docs2 : List Doc} (hdo : DocsOk docs)
    (hperm : docs.Perm docs2) : DocsOk docs2 := by
  constructor
  · intro d hd
    exact hdo.ids d (hperm.mem_iff.mpr hd)
  · exact (List.Perm.pairwise_iff (fun h he => h he.symm) hperm).mp hdo.nodup
  · intro d hd
    exact hdo.vals d (hperm.mem_iff.mpr hd)

theorem mem_aDel {α : Type} : ∀ (l : List (String × α)) (k : String),
    ∀ p ∈ aDel l k, p ∈ l
  | [], _, p, h => absurd h (by simp [aDel])
  | (l0, w) :: rest, k, p, h => by
      unfold aDel at h
      by_cases hl : l0 = k
      · rw [if_pos hl] at h
        exact List.mem_cons_of_mem _ (mem_aDel rest k p h)
      · rw [if_neg hl] at h
        rcases List.mem_cons.mp h with h1 | h1
        · exact h1 ▸ List.mem_cons_self _ _
        · exact List.mem_cons_of_mem _ (mem_aDel rest k p h1)

theorem goodData_parts {data : Doc} (h : goodData data = true) :
    hasKey data "_id" = false ∧ ∀ kv ∈ data, goodVal kv.2 = true := by
  unfold goodData at h
  rcases Bool.and_eq_true_iff.mp h with ⟨h1, h2⟩
  constructor
  · simpa using h1
  · exact List.all_eq_true.mp h2

theorem freshId_parts {docs : List Doc} {genId : String} (h : freshId docs genId = true) :
    genId ≠ "" ∧ ∀ d ∈ docs, aGet d "_id" ≠ some (.str genId) := by
  unfold freshId at h
  rcases Bool.and_eq_true_iff.mp h with ⟨h1, h2⟩
  constructor
  · simpa using h1
  · intro d hd
    have := List.all_eq_true.mp h2 d hd
    simpa using this

theorem documentNew_vals {data : Doc} {genId now : String}
    (hvals : ∀ kv ∈ data, goodVal kv.2 = true) (hgen : genId ≠ "") (hnow : now ≠ "") :
    ∀ kv ∈ Document.new data genId now, goodVal kv.2 = true := by
  intro kv hkv
  rcases Document.new_mem data genId now kv hkv with h | h | h | h
  · exact hvals kv h
  · rw [h]; exact goodVal_str genId hgen
  · rw [h]; exact goodVal_str now hnow
  · rw [h]; exact goodVal_str now hnow

theorem collInv_insert (c : Collection) (data : Doc) (genId now : String)
    (hinv : CollInv c) (hgd : goodData data = true) (hfresh : freshId c.docs genId = true)
    (hnow : now ≠ "") : CollInv (c.insert data genId now).1 := by
  obtain ⟨hnoid, hvals⟩ := goodData_parts hgd
  obtain ⟨hgen, hfr⟩ := freshId_parts hfresh
  have hid : aGet (Document.new data genId now) "_id" = some (.str genId) :=
    Document.new_id data genId now hnoid
  have hdo' : DocsOk (c.docs ++ [Document.new data genId now]) :=
    docsOk_append_single hinv.docs_ok genId hgen hid hfr
      (documentNew_vals hvals hgen hnow)
  unfold Collection.insert
  dsimp only
  constructor
  · exact hdo'
  · intro fm' hfm'
    rcases mem_add_to_indices _ _ _ fm' hfm' with ⟨fm, hfm, he⟩
    rw [he]
    exact (IdxOk_insert (hinv.idx_ok fm hfm) (hinv.buckets_ok fm hfm) hdo' hid).1
  · intro fm' hfm'
    rcases mem_add_to_indices _ _ _ fm' hfm' with ⟨fm, hfm, he⟩
    rw [he]
    exact (IdxOk_insert (hinv.idx_ok fm hfm) (hinv.buckets_ok fm hfm) hdo' hid).2

theorem delete_loop_inv :
    ∀ (pending kept : List Doc) (ix : Indices),
      DocsOk (kept ++ pending) →
      (∀ fm ∈ ix, IdxOk (kept ++ pending) fm.1 fm.2) →
      (∀ fm ∈ ix, BucketsOk fm.2) →
      DocsOk kept ∧
      ∀ fm ∈ pending.foldl
          (fun ix d => IndexManager.remove_from_indices ix (pyGet d "_id") d) ix,
        IdxOk kept fm.1 fm.2 ∧ BucketsOk fm.2 := by
  intro pending
  induction pending with
  | nil =>
      intro kept ix hdo hio hbo
      rw [List.foldl_nil]
      refine ⟨by simpa using hdo, ?_⟩
      intro fm hfm
      exact ⟨by simpa using hio fm hfm, hbo fm hfm⟩
  | cons d rest ih =>
      intro kept ix hdo hio hbo
      rw [List.foldl_cons]
      obtain ⟨s, hs, hid⟩ := hdo.ids d (by simp)
      have hpy : pyGet d "_id" = .str s := pyGet_eq_of_aGet d _ _ hid
      have hdnotin : d ∉ kept ++ rest := by
        intro hmem
        have hp := hdo.nodup
        rw [List.pairwise_append] at hp
        rcases List.mem_append.mp hmem with h1 | h1
        · exact hp.2.2 d h1 d (List.mem_cons_self _ _) rfl
        · exact (List.pairwise_cons.mp hp.2.1).1 d h1 rfl
      have hmem_iff : ∀ e, e ∈ kept ++ d :: rest ↔ e ∈ kept ++ rest ∨ e = d := by
        intro e
        simp [List.mem_append, List.mem_cons]
        tauto
      have hdo2 : DocsOk (kept ++ rest) :=
        docsOk_sublist hdo (List.Sublist.append_left (List.sublist_cons_self _ _) kept)
      apply ih kept _
      · exact hdo2
      · intro fm' hfm'
        rcases mem_remove_from_indices _ _ _ fm' hfm' with ⟨fm, hfm, he⟩
        rw [he, hpy]
        exact IdxOk_remove_doc hmem_iff hdnotin (hio fm hfm) (hbo fm hfm) hdo (by simp) hid
      · intro fm' hfm'
        rcases mem_remove_from_indices _ _ _ fm' hfm' with ⟨fm, hfm, he⟩
        rw [he]
        cases hd : aGet d fm.1 with
        | none => exact hbo fm hfm
        | some v =>
            dsimp only
            exact Index.remove_bucketsOk _ _ _ (hbo fm hfm)

theorem collInv_delete (c : Collection) (q : Doc) (hinv : CollInv c) :
    CollInv (c.delete q).1 := by
  unfold Collection.delete
  by_cases hq : q.isEmpty = true
  · rw [if_pos hq]
    exact hinv
  · rw [if_neg hq]
    dsimp only
    by_cases hn : (c.docs.length - (c.docs.filter (fun doc => !(Collection.matchesQuery doc q))).length == 0) = true
    · rw [if_pos hn]
      exact hinv
    · rw [if_neg hn]
      dsimp only
      have hperm : c.docs.Perm
          (c.docs.filter (fun doc => !(Collection.matchesQuery doc q)) ++
            c.docs.filter (fun doc => Collection.matchesQuery doc q)) := by
        have h1 := List.filter_append_perm (fun doc => !(Collection.matchesQuery doc q)) c.docs
        have h2 : c.docs.filter (fun doc => !(!(Collection.matchesQuery doc q))) =
            c.docs.filter (fun doc => Collection.matchesQuery doc q) := by
          apply List.filter_congr
          intro x _
          simp
        rw [h2] at h1
        exact h1.symm
      have hdo2 : DocsOk (c.docs.filter (fun doc => !(Collection.matchesQuery doc q)) ++
          c.docs.filter (fun doc => Collection.matchesQuery doc q)) :=
        docsOk_mem_congr hinv.docs_ok hperm
      have hres := delete_loop_inv
        (c.docs.filter (fun doc => Collection.matchesQuery doc q))
        (c.docs.filter (fun doc => !(Collection.matchesQuery doc q)))
        c.indices hdo2
        (fun fm hfm => IdxOk_mem_congr (fun e => hperm.mem_iff) (hinv.idx_ok fm hfm))
        hinv.buckets_ok
      exact ⟨hres.1, fun fm hfm => (hres.2 fm hfm).1, fun fm hfm => (hres.2 fm hfm).2⟩

theorem collInv_create_index (c : Collection) (f : String) (hinv : CollInv c) :
    CollInv (c.create_index f) := by
  unfold Collection.create_index
  by_cases hx : IndexManager.isIndexed c.indices f = true
  · rw [if_pos hx]
    exact hinv
  · rw [if_neg hx]
    constructor
    · exact hinv.docs_ok
    · intro fm hfm
      rcases List.mem_append.mp hfm with h1 | h1
      · exact hinv.idx_ok fm h1
      · simp at h1
        subst h1
        intro k x
        rw [show Index.build f c.docs = c.docs.foldl (Index.buildStep f) [] from rfl,
          build_loop_mem f c.docs [] k x]
        constructor
        · rintro (h | ⟨d, hd, hpy, w, hw, hn⟩)
          · exact absurd h (by simp [bucketOf, aGet])
          · obtain ⟨s, _, hsid⟩ := hinv.docs_ok.ids d hd
            refine ⟨d, hd, ?_, w, hw, hn⟩
            rw [hsid, ← hpy, pyGet_eq_of_aGet d _ _ hsid]
        · rintro ⟨d, hd, hide, w, hw, hn⟩
          exact Or.inr ⟨d, hd, pyGet_eq_of_aGet d _ _ hide, w, hw, hn⟩
    · intro fm hfm
      rcases List.mem_append.mp hfm with h1 | h1
      · exact hinv.buckets_ok fm h1
      · simp at h1
        subst h1
        apply build_loop_nodup f c.docs []
        · intro k
          simp [bucketOf, aGet]
        · intro d _ k
          simp [bucketOf, aGet]
        · exact docsOk_pairwise_pyGet hinv.docs_ok

theorem collInv_drop_index (c : Collection) (f : String) (hinv : CollInv c) :
    CollInv (c.drop_index f).1 := by
  unfold Collection.drop_index
  by_cases hx : IndexManager.isIndexed c.indices f = true
  · rw [if_pos hx]
    exact ⟨hinv.docs_ok,
      fun fm hfm => hinv.idx_ok fm (mem_aDel _ _ fm hfm),
      fun fm hfm => hinv.buckets_ok fm (mem_aDel _ _ fm hfm)⟩
  · rw [if_neg hx]
    exact hinv

theorem updateLoop_nil (q upd : Doc) (now : String) (ix : Indices) :
    Collection.updateLoop q upd now [] ix = ([], ix, 0) := rfl

theorem updateLoop_cons_match (q upd : Doc) (now : String) (d : Doc) (rest : List Doc)
    (ix : Indices) (h : Collection.matchesQuery d q = true) :
    Collection.updateLoop q upd now (d :: rest) ix =
      (Collection.applyUpdate d upd now ::
        (Collection.updateLoop q upd now rest
          (IndexManager.update_indices ix
            (pyGet (Collection.applyUpdate d upd now) "_id") d
            (Collection.applyUpdate d upd now))).1,
       (Collection.updateLoop q upd now rest
          (IndexManager.update_indices ix
            (pyGet (Collection.applyUpdate d upd now) "_id") d
            (Collection.applyUpdate d upd now))).2.1,
       (Collection.updateLoop q upd now rest
          (IndexManager.update_indices ix
            (pyGet (Collection.applyUpdate d upd now) "_id") d
            (Collection.applyUpdate d upd now))).2.2 + 1) := by
  conv_lhs => rw [Collection.updateLoop]
  rw [if_pos h]

theorem updateLoop_cons_nomatch (q upd : Doc) (now : String) (d : Doc) (rest : List Doc)
    (ix : Indices) (h : Collection.matchesQuery d q = false) :
    Collection.updateLoop q upd now (d :: rest) ix =
      (d :: (Collection.updateLoop q upd now rest ix).1,
       (Collection.updateLoop q upd now rest ix).2.1,
       (Collection.updateLoop q upd now rest ix).2.2) := by
  conv_lhs => rw [Collection.updateLoop]
  rw [h]
  simp only [Bool.false_eq_true, if_false]

theorem update_loop_inv (q upd : Doc) (now : String) (hgu : goodUpd upd = true)
    (hnow : now ≠ "") :
    ∀ (pending A : List Doc) (ix : Indices),
      DocsOk (A ++ pending) →
      (∀ fm ∈ ix, IdxOk (A ++ pending) fm.1 fm.2) →
      (∀ fm ∈ ix, BucketsOk fm.2) →
      (∀ (f : String), (∃ fm ∈ ix, fm.1 = f) → ∀ d ∈ pending,
        Collection.matchesQuery d q = true →
        normCompat (pyGet d f) (pyGet (Collection.applyUpdate d upd now) f) = true) →
      DocsOk (A ++ (Collection.updateLoop q upd now pending ix).1) ∧
      (∀ fm ∈ (Collection.updateLoop q upd now pending ix).2.1,
        IdxOk (A ++ (Collection.updateLoop q upd now pending ix).1) fm.1 fm.2 ∧
          BucketsOk fm.2) := by
  intro pending
  induction pending with
  | nil =>
      intro A ix hdo hio hbo hcompat
      rw [updateLoop_nil]
      refine ⟨by simpa using hdo, ?_⟩
      intro fm hfm
      exact ⟨by simpa using hio fm hfm, hbo fm hfm⟩
  | cons d rest ih =>
      intro A ix hdo hio hbo hcompat
      by_cases hm : Collection.matchesQuery d q = true
      · rw [updateLoop_cons_match q upd now d rest ix hm]
        obtain ⟨s, hs, hid⟩ := hdo.ids d (by simp)
        have hidg : goodVal (pyGet d "_id") = true := by
          rw [pyGet_eq_of_aGet d _ _ hid]
          exact goodVal_str s hs
        have hid1 : aGet (Collection.applyUpdate d upd now) "_id" = some (.str s) :=
          applyUpdate_id d upd now hgu _ hid
        have hpy1 : pyGet (Collection.applyUpdate d upd now) "_id" = .str s :=
          pyGet_eq_of_aGet _ _ _ hid1
        have hvals1 : ∀ kv ∈ Collection.applyUpdate d upd now, goodVal kv.2 = true :=
          applyUpdate_vals d upd now hgu (hdo.vals d (by simp)) hnow hidg
        have hdo1 : DocsOk (A ++ Collection.applyUpdate d upd now :: rest) :=
          docsOk_replace hdo (by rw [hid1, hid]) hvals1
        have hstep : ∀ fm' ∈ IndexManager.update_indices ix
            (pyGet (Collection.applyUpdate d upd now) "_id") d
            (Collection.applyUpdate d upd now),
            IdxOk (A ++ Collection.applyUpdate d upd now :: rest) fm'.1 fm'.2 ∧
              BucketsOk fm'.2 := by
          intro fm' hfm'
          rcases mem_update_indices _ _ _ _ fm' hfm' with ⟨fm, hfm, he⟩
          rw [he, hpy1]
          have hc := hcompat fm.1 ⟨fm, hfm, rfl⟩ d (by simp) hm
          exact IdxOk_update_doc (hio fm hfm) (hbo fm hfm) hdo hdo1 hid hid1 hc
        have hres := ih (A ++ [Collection.applyUpdate d upd now])
          (IndexManager.update_indices ix
            (pyGet (Collection.applyUpdate d upd now) "_id") d
            (Collection.applyUpdate d upd now))
          (by simpa using hdo1)
          (by
            intro fm hfm
            have := (hstep fm hfm).1
            apply IdxOk_mem_congr _ this
            intro e
            simp)
          (fun fm hfm => (hstep fm hfm).2)
          (by
            intro f hf e he hme
            rcases hf with ⟨fm', hfm', hf1⟩
            rcases mem_update_indices _ _ _ _ fm' hfm' with ⟨fm, hfm, he2⟩
            refine hcompat f ⟨fm, hfm, ?_⟩ e (List.mem_cons_of_mem _ he) hme
            rw [he2] at hf1
            exact hf1)
        constructor
        · rw [List.append_cons]
          exact hres.1
        · intro fm hfm
          refine ⟨?_, ((hres.2) fm hfm).2⟩
          rw [List.append_cons]
          exact ((hres.2) fm hfm).1
      · have hm' : Collection.matchesQuery d q = false := by
          rw [← Bool.not_eq_true]; exact hm
        rw [updateLoop_cons_nomatch q upd now d rest ix hm']
        have hres := ih (A ++ [d]) ix
          (by simpa using hdo)
          (by
            intro fm hfm
            apply IdxOk_mem_congr _ (hio fm hfm)
            intro e
            simp)
          hbo
          (fun f hf e he hme => hcompat f hf e (List.mem_cons_of_mem _ he) hme)
        constructor
        · rw [List.append_cons]
          exact hres.1
        · intro fm hfm
          refine ⟨?_, ((hres.2) fm hfm).2⟩
          rw [List.append_cons]
          exact ((hres.2) fm hfm).1

theorem collInv_update (c : Collection) (q upd : Doc) (now : String)
    (hinv : CollInv c) (hgu : goodUpd upd = true) (hnow : now ≠ "")
    (hcompat : updCompat c q upd now = true) : CollInv (c.update q upd now).1 := by
  unfold Collection.update
  dsimp only
  have hcompat2 : ∀ (f : String), (∃ fm ∈ c.indices, fm.1 = f) → ∀ d ∈ c.docs,
      Collection.matchesQuery d q = true →
      normCompat (pyGet d f) (pyGet (Collection.applyUpdate d upd now) f) = true := by
    intro f hf d hd hm
    rcases hf with ⟨fm, hfm, hf1⟩
    unfold updCompat at hcompat
    have h1 := List.all_eq_true.mp hcompat fm hfm
    have h2 := List.all_eq_true.mp h1 d hd
    rcases Bool.or_eq_true_iff.mp h2 with h3 | h3
    · rw [hm] at h3
      simp at h3
    · rw [← hf1]
      exact h3
  have hres := update_loop_inv q upd now hgu hnow c.docs [] c.indices
    (by simpa using hinv.docs_ok)
    (by
      intro fm hfm
      apply IdxOk_mem_congr _ (hinv.idx_ok fm hfm)
      intro e
      simp)
    hinv.buckets_ok
    hcompat2
  exact ⟨by simpa using hres.1,
    fun fm hfm => by simpa using (hres.2 fm hfm).1,
    fun fm hfm => (hres.2 fm hfm).2⟩

theorem collInv_empty : CollInv Collection.empty := by
  constructor
  · constructor
    · intro d hd; exact absurd hd (by simp [Collection.empty])
    · simp [Collection.empty]
    · intro d hd; exact absurd hd (by simp [Collection.empty])
  · intro fm hfm; exact absurd hfm (by simp [Collection.empty])
  · intro fm hfm; exact absurd hfm (by simp [Collection.empty])

/-- Every reachable collection state satisfies the whole-collection
invariant. -/
theorem reach_inv {c : Collection} (h : Reach c) : CollInv c := by
  induction h with
  | empty => exact collInv_empty
  | insert data genId now _ hgd hfresh hnow ih => exact collInv_insert _ data genId now ih hgd hfresh hnow
  | update q upd now _ hgu hnow hcompat ih => exact collInv_update _ q upd now ih hgu hnow hcompat
  | delete q _ ih => exact collInv_delete _ q ih
  | create_index field _ ih => exact collInv_create_index _ field ih
  | drop_index field _ ih => exact collInv_drop_index _ field ih

theorem vdAll_not_key_only (k0 : String) :
    ∀ (s : VDict), vdAll (fun k _ => !(k == k0)) s = true → vdHasKey s k0 = false
  | .nil, _ => rfl
  | .cons l v rest, h => by
      obtain ⟨h1, h2⟩ := vdAll_head h
      unfold vdHasKey
      rw [vdAll_not_key_only k0 rest h2]
      simpa using h1

theorem applyUpdate_id_safe (d upd : Doc) (now : String) (hgu : idSafeUpd upd = true)
    (w0 : Value) (hid : aGet d "_id" = some w0) :
    aGet (Collection.applyUpdate d upd now) "_id" = some w0 := by
  unfold Collection.applyUpdate
  dsimp only
  rw [aGet_aSet_ne _ _ _ _ (by decide)]
  unfold idSafeUpd at hgu
  by_cases hs : hasKey upd "$set" = true
  · rw [if_pos hs] at hgu ⊢
    cases hv : aGet upd "$set" with
    | none => rw [hv] at hgu; simp at hgu
    | some vv =>
        rw [hv] at hgu
        cases vv with
        | dict sd =>
            show aGet (Collection.applySet d sd) "_id" = some w0
            rw [applySet_aGet_not_key sd d "_id" (vdAll_not_key_only _ sd hgu)]
            exact hid
        | null => simp at hgu
        | bool b => simp at hgu
        | int n => simp at hgu
        | str t => simp at hgu
        | list t => simp at hgu
  · rw [if_neg hs] at hgu ⊢
    by_cases hi : hasKey upd "$inc" = true
    · rw [if_pos hi] at hgu ⊢
      cases hv : aGet upd "$inc" with
      | none => rw [hv] at hgu; simp at hgu
      | some vv =>
          rw [hv] at hgu
          cases vv with
          | dict sd =>
              show aGet (Collection.applyInc d sd) "_id" = some w0
              rw [applyInc_aGet_not_key sd d "_id" (vdAll_not_key_only _ sd hgu)]
              exact hid
          | null => simp at hgu
          | bool b => simp at hgu
          | int n => simp at hgu
          | str t => simp at hgu
          | list t => simp at hgu
    · rw [if_neg hi] at hgu ⊢
      rw [aGet_aSet_self, pyGet_eq_of_aGet d _ _ hid]

theorem update_loop_id_map (q upd : Doc) (now : String) (hgu : idSafeUpd upd = true) :
    ∀ (ds : List Doc) (ix : Indices), (∀ d ∈ ds, ∃ w : Value, aGet d "_id" = some w) →
      (Collection.updateLoop q upd now ds ix).1.map (fun d => aGet d "_id") =
        ds.map (fun d => aGet d "_id")
  | [], ix, _ => by rw [updateLoop_nil]
  | d :: rest, ix, hp => by
      by_cases h : Collection.matchesQuery d q = true
      · rw [updateLoop_cons_match q upd now d rest ix h]
        obtain ⟨w, hw⟩ := hp d (List.mem_cons_self d rest)
        dsimp only [List.map_cons]
        rw [applyUpdate_id_safe d upd now hgu w hw, hw,
          update_loop_id_map q upd now hgu rest _
            (fun e he => hp e (List.mem_cons_of_mem d he))]
      · rw [updateLoop_cons_nomatch q upd now d rest ix (Bool.eq_false_iff.mpr h)]
        dsimp only [List.map_cons]
        rw [update_loop_id_map q upd now hgu rest _
          (fun e he => hp e (List.mem_cons_of_mem d he))]

theorem idsOk_insert (c : Collection) (data : Doc) (genId now : String)
    (hnoid : hasKey data "_id" = false) (hf : freshIdOnly c.docs genId = true)
    (hio : IdsOk c.docs) : IdsOk (c.insert data genId now).1.docs := by
  unfold Collection.insert
  dsimp only
  have hid : aGet (Document.new data genId now) "_id" = some (.str genId) :=
    Document.new_id data genId now hnoid
  have hfr : ∀ d ∈ c.docs, aGet d "_id" ≠ some (.str genId) := by
    intro d hd
    have := List.all_eq_true.mp hf d hd
    simpa using this
  constructor
  · intro d hd
    rcases List.mem_append.mp hd with h | h
    · exact hio.ids d h
    · rw [List.mem_singleton.mp h]
      exact ⟨.str genId, hid⟩
  · rw [List.pairwise_append]
    refine ⟨hio.nodup, List.pairwise_singleton _ _, ?_⟩
    intro a ha b hb
    rw [List.mem_singleton.mp hb, hid]
    exact hfr a ha

theorem idsOk_update (c : Collection) (q upd : Doc) (now : String)
    (hgu : idSafeUpd upd = true) (hio : IdsOk c.docs) :
    IdsOk (c.update q upd now).1.docs := by
  unfold Collection.update
  dsimp only
  have hmap := update_loop_id_map q upd now hgu c.docs c.indices hio.ids
  constructor
  · intro d hd
    have hmem : aGet d "_id" ∈ (Collection.updateLoop q upd now c.docs c.indices).1.map
        (fun e => aGet e "_id") := List.mem_map_of_mem _ hd
    rw [hmap] at hmem
    rcases List.mem_map.mp hmem with ⟨e, he, hee⟩
    rcases hio.ids e he with ⟨w, hw⟩
    exact ⟨w, by rw [← hee]; exact hw⟩
  · have h2 : ((Collection.updateLoop q upd now c.docs c.indices).1.map
        (fun e => aGet e "_id")).Pairwise (fun a b => a ≠ b) := by
      rw [hmap]
      exact (List.pairwise_map).mpr hio.nodup
    exact (List.pairwise_map).mp h2

theorem idsOk_sublist {docs docs2 : List Doc} (hio : IdsOk docs)
    (hsub : docs2.Sublist docs) : IdsOk docs2 := by
  constructor
  · intro d hd
    exact hio.ids d (hsub.mem hd)
  · exact hio.nodup.sublist hsub

theorem idsOk_delete (c : Collection) (q : Doc) (hio : IdsOk c.docs) :
    IdsOk (c.delete q).1.docs := by
  unfold Collection.delete
  by_cases hq : q.isEmpty = true
  · rw [if_pos hq]
    exact hio
  · rw [if_neg hq]
    dsimp only
    by_cases hn : (c.docs.length - (c.docs.filter (fun doc => !(Collection.matchesQuery doc q))).length == 0) = true
    · rw [if_pos hn]
      exact hio
    · rw [if_neg hn]
      dsimp only
      exact idsOk_sublist hio (List.filter_sublist c.docs)

theorem create_index_docs (c : Collection) (f : String) :
    (c.create_index f).docs = c.docs := by
  unfold Collection.create_index
  split <;> rfl

theorem drop_index_docs (c : Collection) (f : String) :
    (c.drop_index f).1.docs = c.docs := by
  unfold Collection.drop_index
  split <;> rfl

theorem reachU_idsOk {c : Collection} (h : ReachU c) : IdsOk c.docs := by
  induction h with
  | empty =>
      constructor
      · intro d hd; exact absurd hd (by simp [Collection.empty])
      · simp [Collection.empty]
  | insert data genId now _ hnoid hf ih => exact idsOk_insert _ data genId now hnoid hf ih
  | update q upd now _ hgu ih => exact idsOk_update _ q upd now hgu ih
  | delete q _ ih => exact idsOk_delete _ q ih
  | create_index field _ ih => rw [create_index_docs]; exact ih
  | drop_index field _ ih => rw [drop_index_docs]; exact ih

/-!
Helpers for reasoning about `Collection.find`.
-/

theorem matchesQuery_single (d : Doc) (f : String) (v : Value) :
    Collection.matchesQuery d [(f, v)] = true ↔
      ∃ w, aGet d f = some w ∧ pyEq w v = true := by
  unfold Collection.matchesQuery
  rw [show (([(f, v)] : Doc).all fun kv =>
      match aGet d kv.1 with
      | some w => pyEq w kv.2
      | none => false) =
    (match aGet d f with
     | some w => pyEq w v
     | none => false) from by simp [List.all_cons]]
  cases hg : aGet d f with
  | none => simp
  | some w => simp

theorem build_IdxOk (docs : List Doc) (f : String) (hdo : DocsOk docs) :
    IdxOk docs f (Index.build f docs) := by
  intro k x
  rw [show Index.build f docs = docs.foldl (Index.buildStep f) [] from rfl,
    build_loop_mem f docs [] k x]
  constructor
  · rintro (h | ⟨d, hd, hpy, w, hw, hn⟩)
    · exact absurd h (by simp [bucketOf, aGet])
    · obtain ⟨s, _, hsid⟩ := hdo.ids d hd
      refine ⟨d, hd, ?_, w, hw, hn⟩
      rw [hsid, ← hpy, pyGet_eq_of_aGet d _ _ hsid]
  · rintro ⟨d, hd, hide, w, hw, hn⟩
    exact Or.inr ⟨d, hd, pyGet_eq_of_aGet d _ _ hide, w, hw, hn⟩

theorem isIndexed_add_to_indices (ix : Indices) (id : Value) (document : Doc) (k : String) :
    aGet (IndexManager.add_to_indices ix id document) k =
      (aGet ix k).map (fun m =>
        match aGet document k with
        | some v => Index.add m id v
        | none => m) := by
  induction ix with
  | nil => rfl
  | cons fm rest ih =>
      obtain ⟨f0, m0⟩ := fm
      unfold IndexManager.add_to_indices at ih ⊢
      rw [List.map_cons]
      by_cases hf : f0 = k
      · subst hf
        simp [aGet]
      · simp [aGet, hf, ih]

/-!
Closed claim theorems: counterexamples, code-bug evaluations and concrete
scenarios.  Each is a computation of the embedded operations at explicit
inputs.
-/

/-- C1, counterexample.  Inserting a mapping that already carries an `_id`
(`{"_id": "x"}`) returns the freshly generated UUID `"g1"` — not `"x"` —
because `Collection.insert` returns `document.id` while `Document.__init__`
keeps the caller's `_id` field; an immediate `find({"_id": "g1"})` therefore
returns no document at all, refuting the round trip for inputs that supply
`_id`. -/
theorem C1_counterexample :
    (Collection.empty.insert [("_id", .str "x")] "g1" "t1").2 = "g1" ∧
    (Collection.empty.insert [("_id", .str "x")] "g1" "t1").1.find
      [("_id", .str "g1")] = [] := by
  exact ⟨rfl, by decide⟩

/-- C2, counterexample.  Create an index on `"a"` over the empty collection,
then insert `{"a": null}`: `Index.add` skips `None` values, so the indexed
evaluation of `find({"a": null})` finds an empty candidate set and
short-circuits to `[]`, while the unindexed full scan matches the stored
document — the two evaluations differ. -/
theorem C2_counterexample :
    ((Collection.empty.create_index "a").insert [("a", .null)] "g1" "t1").1.find
      [("a", .null)] = [] ∧
    (((Collection.empty.create_index "a").insert [("a", .null)] "g1" "t1").1.docs.filter
      (fun d => Collection.matchesQuery d [("a", .null)])).length = 1 := by
  exact ⟨by decide, by decide⟩

/-- C3, counterexample.  After creating an index on `"a"` and inserting
`{"a": null}`, the stored document has the indexed field `"a"`, yet the
index holds no entry at all (`Index.add` returns early on a `None` value):
the claimed invariant "a stored document's id appears in the bucket of its
current value if the document has the field" fails. -/
theorem C3_counterexample :
    ((Collection.empty.create_index "a").insert [("a", .null)] "g1" "t1").1.indices =
      [("a", [])] ∧
    hasKey
      ((((Collection.empty.create_index "a").insert [("a", .null)] "g1" "t1").1.docs).head!)
      "a" = true := by
  exact ⟨by decide, by decide⟩

/-- C4, counterexample.  A matched document `{"a": 1, "b": 2, ...}` updated
with the operator-free update document `{"a": 9}` keeps its field `"b"`:
the source performs `doc.update(update)` — a merge — so pre-existing
non-reserved fields not listed in the update *do* survive, refuting the
full-replacement reading. -/
theorem C4_counterexample :
    (((Collection.empty.insert [("a", .int 1), ("b", .int 2)] "g1" "t1").1.update
       [("a", .int 1)] [("a", .int 9)] "t2").1.docs.map (fun d => aGet d "b")) =
      [some (.int 2)] ∧
    hasKey [("a", Value.int 9)] "b" = false ∧
    ((Collection.empty.insert [("a", .int 1), ("b", .int 2)] "g1" "t1").1.update
       [("a", .int 1)] [("a", .int 9)] "t2").2 = 1 := by
  exact ⟨by decide, by decide, by decide⟩

/-- C5, evaluation at the failing input.  The query evaluator compares each
clause value with plain Python `==`; a comparison clause
`{"a": {"$lt": 5}}` is treated as literal equality to the nested mapping
`{"$lt": 5}`, so a collection holding `{"a": 3}` — which satisfies `3 < 5`
— yields no match.  (The repository's own examples, e.g.
`examples/todo_app_example.py`, issue such `$lt`/`$gte` queries.) -/
theorem C5_comparison_clause_matches_nothing :
    (Collection.empty.insert [("a", .int 3)] "g1" "t1").1.find
      [("a", .dict (.cons "$lt" (.int 5) .nil))] = [] ∧
    (3 : Int) < 5 := by
  exact ⟨by decide, by decide⟩

/-- C6, counterexample.  Inserting `{"_id": "x"}` twice stores two documents
bearing the same `_id` `"x"`: `Document.__init__` keeps a caller-supplied
`_id` and `Collection.insert` performs no uniqueness check. -/
theorem C6_counterexample :
    (((Collection.empty.insert [("_id", .str "x")] "g1" "t1").1.insert
       [("_id", .str "x")] "g2" "t2").1.docs.map (fun d => aGet d "_id")) =
      [some (.str "x"), some (.str "x")] := by
  decide

/-- C7, counterexample.  With an index on `"a"` created before inserting
`{"a": null}`, the incrementally maintained index answers
`find_doc_ids(None) = []` (the `None` value was never added), but the index
rebuilt by a full scan after deleting the artifact answers `["g1"]`
(`_build_index` indexes `None` under the key `"None"`): the lookup results
differ. -/
theorem C7_counterexample :
    Index.find_doc_ids
      ((((Collection.empty.create_index "a").insert [("a", .null)] "g1" "t1").1.indices.head!).2)
      .null = [] ∧
    Index.find_doc_ids
      (Index.build "a"
        (((Collection.empty.create_index "a").insert [("a", .null)] "g1" "t1").1.docs))
      .null = [.str "g1"] := by
  exact ⟨by decide, by decide⟩

/-- C8, confirmed.  Inserting `{"a": null}` and `{}` into an empty
collection (no index on `"a"`) and querying `find({"a": null})` returns
exactly the first stored document: `None == None` matches the explicit
null, while the document lacking `"a"` fails the `key not in doc` test. -/
theorem C8_null_vs_absent :
    (((Collection.empty.insert [("a", .null)] "g1" "t1").1.insert [] "g2" "t2").1.find
      [("a", .null)]) =
      [[("a", .null), ("_id", .str "g1"), ("_created_at", .str "t1"),
        ("_updated_at", .str "t1")]] := by
  decide

/-- C9, evaluation at the failing schedule.  `Collection` holds no lock, so
the read and write phases of two concurrent `insert` calls can interleave
as read₀, read₁, write₀, write₁; both calls succeed (each returns its id),
yet the final collection file holds only thread 1's document — thread 0's
generated `_id` `"g0"` appears zero times, not exactly once, in a final
`find()`. -/
theorem C9_lost_update :
    (raceRun (Document.new [("a", .int 1)] "g0" "t0") (Document.new [("a", .int 2)] "g1" "t1")
      [.read0, .read1, .write0, .write1]).file.map (fun d => aGet d "_id") =
      [some (.str "g1")] := by
  decide

/-- C10, confirmed.  `Collection.delete` returns 0 and changes nothing —
neither the stored documents nor any index — when the query is empty
(falsy), for every collection state; `Collection.find` with the same empty
query instead returns every stored document. -/
theorem C10_empty_query_delete_noop (c : Collection) :
    c.delete [] = (c, 0) ∧ c.find [] = c.docs := by
  exact ⟨rfl, rfl⟩

/-- C2, amended.  Index transparency holds on well-behaved reachable states
(no caller-supplied `_id`s, fresh non-empty generated ids, non-empty
timestamps, no empty-string and no null stored field values, updates that
never replace a field value by a Python-equal but differently-normalized
value), provided additionally that every stored value of the queried field
that is Python-equal to the query value has the same normalized index key
as the query value (this excludes Python's cross-type equalities such as
`1 == True`, whose keys `"1"` and `"True"` differ): then the indexed
evaluation of `find({f: v})` returns exactly the unindexed full-scan
result. -/
theorem C2_index_transparency (c : Collection) (hr : Reach c) (f : String) (v : Value)
    (m : IndexMap) (hm : aGet c.indices f = some m)
    (hnorm : ∀ d ∈ c.docs, ∀ w, aGet d f = some w → pyEq w v = true →
      Index.get_indexable_value w = Index.get_indexable_value v) :
    c.find [(f, v)] = c.docs.filter (fun d => Collection.matchesQuery d [(f, v)]) := by
  have hinv := reach_inv hr
  have hfm : (f, m) ∈ c.indices := aGet_mem _ _ _ hm
  have hio := hinv.idx_ok (f, m) hfm
  unfold Collection.find
  rw [if_neg (by simp)]
  have hidx : IndexManager.isIndexed c.indices f = true := by
    unfold IndexManager.isIndexed
    rw [hm]
    rfl
  rw [List.find?_cons_of_pos _ (by exact hidx)]
  dsimp only
  have hids : IndexManager.find_by_index c.indices f v =
      bucketOf m (Index.get_indexable_value v) := by
    unfold IndexManager.find_by_index Index.find_doc_ids
    rw [hm]
  rw [hids]
  by_cases hempty : (bucketOf m (Index.get_indexable_value v)).isEmpty = true
  · rw [if_pos hempty]
    symm
    rw [List.filter_eq_nil_iff]
    intro d hd hmatch
    obtain ⟨w, hw, hpe⟩ := (matchesQuery_single d f v).mp hmatch
    obtain ⟨s, _, hsid⟩ := hinv.docs_ok.ids d hd
    have hmem := (hio (Index.get_indexable_value w) (.str s)).mpr ⟨d, hd, hsid, w, hw, rfl⟩
    rw [hnorm d hd w hw hpe, List.isEmpty_iff.mp hempty] at hmem
    simp at hmem
  · rw [if_neg hempty]
    apply List.filter_congr
    intro d hd
    by_cases hmatch : Collection.matchesQuery d [(f, v)] = true
    · rw [hmatch, Bool.and_true]
      obtain ⟨w, hw, hpe⟩ := (matchesQuery_single d f v).mp hmatch
      obtain ⟨s, _, hsid⟩ := hinv.docs_ok.ids d hd
      have hmem := (hio (Index.get_indexable_value w) (.str s)).mpr ⟨d, hd, hsid, w, hw, rfl⟩
      rw [hnorm d hd w hw hpe] at hmem
      rw [pyGet_eq_of_aGet d _ _ hsid]
      exact (bucketMem_str _ _).mpr hmem
    · have hmatch' : Collection.matchesQuery d [(f, v)] = false := by
        rw [← Bool.not_eq_true]
        exact hmatch
      rw [hmatch', Bool.and_false]

/-- C7, amended.  On well-behaved reachable states (the `Reach` provisos:
no caller-supplied `_id`s, fresh non-empty generated ids, non-empty
timestamps, no null and no empty-string stored field values,
norm-compatible updates), deleting an index artifact and rebuilding it by
a full scan of the collection file reproduces the incrementally-maintained
index's `find_doc_ids` answers as *sets* of ids, for every lookup value
(bucket order may differ after updates, and a null-valued or
caller-`_id`ed history — see the counterexample — breaks even set
equality). -/
theorem C7_rebuild_equivalence (c : Collection) (hr : Reach c) :
    ∀ fm ∈ c.indices, ∀ (v x : Value),
      x ∈ Index.find_doc_ids fm.2 v ↔
        x ∈ Index.find_doc_ids (Index.build fm.1 c.docs) v := by
  intro fm hfm v x
  have hinv := reach_inv hr
  unfold Index.find_doc_ids
  rw [hinv.idx_ok fm hfm (Index.get_indexable_value v) x,
    build_IdxOk c.docs fm.1 hinv.docs_ok (Index.get_indexable_value v) x]

/-- C3, amended.  On well-behaved reachable states (the `Reach` provisos:
no caller-supplied `_id`s — whose `document.id` would desynchronise the
index from the stored `_id` —, fresh non-empty generated ids, no null
stored values — which `Index.add` skips —, no empty-string values — whose
falsy key defeats removal —, and updates never replacing a value by a
Python-equal but differently-normalized one), the index-state invariant
holds after every operation: a stored document carrying an indexed field
has its id in the bucket of its current normalized value and in no other
bucket, and a document lacking the field appears nowhere in that index. -/
theorem C3_index_state_invariant (c : Collection) (hr : Reach c) :
    ∀ fm ∈ c.indices, ∀ d ∈ c.docs,
      (∀ w, aGet d fm.1 = some w →
        ∃ s, aGet d "_id" = some (.str s) ∧
          Value.str s ∈ bucketOf fm.2 (Index.get_indexable_value w) ∧
          ∀ k, Value.str s ∈ bucketOf fm.2 k → k = Index.get_indexable_value w) ∧
      (aGet d fm.1 = none →
        ∀ k x, aGet d "_id" = some x → x ∉ bucketOf fm.2 k) := by
  intro fm hfm d hd
  have hinv := reach_inv hr
  have hio := hinv.idx_ok fm hfm
  constructor
  · intro w hw
    obtain ⟨s, _, hsid⟩ := hinv.docs_ok.ids d hd
    refine ⟨s, hsid, (hio _ (.str s)).mpr ⟨d, hd, hsid, w, hw, rfl⟩, ?_⟩
    intro k hk
    rcases (hio k (.str s)).mp hk with ⟨e, he, hide, w2, hw2, hn2⟩
    have he2 : e = d := eq_of_pairwise_ne (fun x => aGet x "_id") _ hinv.docs_ok.nodup
      e he d hd (by show aGet e "_id" = aGet d "_id"; rw [hide, hsid])
    rw [he2] at hw2
    rw [hw] at hw2
    injection hw2 with hw2
    rw [← hn2, ← hw2]
  · intro hnone k x hidx hmem
    rcases (hio k x).mp hmem with ⟨e, he, hide, w2, hw2, hn2⟩
    have he2 : e = d := eq_of_pairwise_ne (fun y => aGet y "_id") _ hinv.docs_ok.nodup
      e he d hd (by show aGet e "_id" = aGet d "_id"; rw [hide, hidx])
    rw [he2, hnone] at hw2
    exact Option.noConfusion hw2

/-- C6, amended.  `_id` values are pairwise distinct in every state
reachable under only the provisos the amended claim itself names: callers
never supply `_id` in inserted mappings (the generated UUIDs being assumed
fresh) and update operators never touch `_id` (their payloads being dicts,
as the source requires to execute at all); field values, timestamps,
queries, deletes and index operations are otherwise unrestricted.  A
caller-supplied duplicate `_id` is stored without any check (see the
counterexample). -/
theorem C6_unique_ids (c : Collection) (hr : ReachU c) :
    c.docs.Pairwise (fun a b => aGet a "_id" ≠ aGet b "_id") :=
  (reachU_idsOk hr).nodup

/-- C4, amended.  When the update document carries neither `$set` nor
`$inc`, `Collection.update` rewrites every matched document by *merging*
the update document into it (`doc.update(update)`): updated keys take the
update's values, pre-existing fields not listed in the update survive
unchanged, `_id` is always restored to its old value whatever the update
document contains, and `_updated_at` is stamped with the operation time. -/
theorem C4_operatorless_update_merges (c : Collection) (q upd : Doc) (now : String)
    (hs : hasKey upd "$set" = false) (hi : hasKey upd "$inc" = false)
    (hnd : (upd.map Prod.fst).Nodup)
    (hids : ∀ d ∈ c.docs, ∃ w, aGet d "_id" = some w) :
    (c.update q upd now).1.docs =
      c.docs.map (fun d => if Collection.matchesQuery d q = true
        then Collection.applyUpdate d upd now else d) ∧
    ∀ d ∈ c.docs, Collection.matchesQuery d q = true →
      aGet (Collection.applyUpdate d upd now) "_id" = aGet d "_id" ∧
      aGet (Collection.applyUpdate d upd now) "_updated_at" = some (.str now) ∧
      (∀ k, k ≠ "_id" → k ≠ "_updated_at" →
        aGet (Collection.applyUpdate d upd now) k =
          match aGet upd k with
          | some v => some v
          | none => aGet d k) := by
  constructor
  · unfold Collection.update
    dsimp only
    have hloop : ∀ (pending : List Doc) (ix : Indices),
        (Collection.updateLoop q upd now pending ix).1 =
          pending.map (fun d => if Collection.matchesQuery d q = true
            then Collection.applyUpdate d upd now else d) := by
      intro pending
      induction pending with
      | nil => intro ix; rw [updateLoop_nil]; rfl
      | cons d rest ih =>
          intro ix
          by_cases hmq : Collection.matchesQuery d q = true
          · rw [updateLoop_cons_match q upd now d rest ix hmq, List.map_cons, if_pos hmq, ih]
          · have hmq' : Collection.matchesQuery d q = false := by
              rw [← Bool.not_eq_true]; exact hmq
            rw [updateLoop_cons_nomatch q upd now d rest ix hmq', List.map_cons, if_neg hmq,
              ih]
    exact hloop c.docs c.indices
  · intro d hd hmq
    obtain ⟨w0, hw0⟩ := hids d hd
    refine ⟨?_, applyUpdate_updated d upd now, ?_⟩
    · rw [applyUpdate_replace_id d upd now hs hi w0 hw0, hw0]
    · intro k hk1 hk2
      exact applyUpdate_replace_aGet d upd now hs hi hnd k hk1 hk2

/-- The `_created_at` field of a freshly wrapped document: kept if the
caller supplied one, stamped with the operation time otherwise. -/
theorem Document.new_created (data : Doc) (genId now : String) :
    aGet (Document.new data genId now) "_created_at" =
      match aGet data "_created_at" with
      | some w => some w
      | none => some (.str now) := by
  simp only [Document.new]
  by_cases hk : hasKey data "_id" = true
  · rw [if_pos hk]
    by_cases hc : hasKey data "_created_at" = true
    · rw [if_pos hc, aGet_aSet_ne _ _ _ _ (by decide)]
      obtain ⟨w, hw⟩ := (hasKey_true_iff data "_created_at").mp hc
      rw [hw]
    · rw [if_neg hc]
      have hn : aGet data "_created_at" = none := by
        rw [← hasKey_false_iff]
        exact Bool.eq_false_iff.mpr hc
      rw [aGet_aSet_ne _ _ _ _ (by decide), aGet_append_single_self data _ _ hn, hn]
  · rw [if_neg hk]
    have hsame : aGet (data ++ [("_id", Value.str genId)]) "_created_at" =
        aGet data "_created_at" := aGet_append_single_ne data _ _ _ (by decide)
    by_cases hc : hasKey (data ++ [("_id", Value.str genId)]) "_created_at" = true
    · rw [if_pos hc, aGet_aSet_ne _ _ _ _ (by decide), hsame]
      obtain ⟨w, hw⟩ := (hasKey_true_iff _ "_created_at").mp hc
      rw [hsame] at hw
      rw [hw]
    · rw [if_neg hc]
      have hn : aGet (data ++ [("_id", Value.str genId)]) "_created_at" = none := by
        rw [← hasKey_false_iff]
        exact Bool.eq_false_iff.mpr hc
      rw [aGet_aSet_ne _ _ _ _ (by decide), aGet_append_single_self _ _ _ hn,
        ← hsame, hn]

/-- C1, amended.  The insert/find round trip holds for every input mapping
that does *not* already carry an `_id` field (a caller-supplied `_id` is
kept in the stored data while `insert` returns the unrelated generated
UUID — see the counterexample): on a well-behaved reachable state, with a
fresh non-empty generated id, `insert(d)` returns the generated id, an
immediate `find({"_id": id})` returns exactly the one new stored document
— whether or not `_id` happens to be an indexed field — and that document
agrees with `d` on every non-reserved field, has the three reserved fields
populated, and has no other fields. -/
theorem C1_roundtrip (c : Collection) (data : Doc) (genId now : String)
    (hr : Reach c) (hgd : goodData data = true) (hfresh : freshId c.docs genId = true)
    (hnow : now ≠ "") :
    (c.insert data genId now).2 = genId ∧
    (c.insert data genId now).1.find [("_id", .str genId)] =
      [Document.new data genId now] ∧
    aGet (Document.new data genId now) "_id" = some (.str genId) ∧
    hasKey (Document.new data genId now) "_created_at" = true ∧
    aGet (Document.new data genId now) "_updated_at" = some (.str now) ∧
    (∀ k, k ≠ "_id" → k ≠ "_created_at" → k ≠ "_updated_at" →
      aGet (Document.new data genId now) k = aGet data k) ∧
    (∀ kv ∈ Document.new data genId now,
      kv ∈ data ∨ kv.1 = "_id" ∨ kv.1 = "_created_at" ∨ kv.1 = "_updated_at") := by
  have hinv := reach_inv hr
  obtain ⟨hnoid, hvals⟩ := goodData_parts hgd
  obtain ⟨hgen, hfr⟩ := freshId_parts hfresh
  have hid : aGet (Document.new data genId now) "_id" = some (.str genId) :=
    Document.new_id data genId now hnoid
  have hmatchnew : Collection.matchesQuery (Document.new data genId now)
      [("_id", .str genId)] = true :=
    (matchesQuery_single _ _ _).mpr ⟨.str genId, hid, by simp [pyEq]⟩
  have hmatchold : ∀ d ∈ c.docs,
      Collection.matchesQuery d [("_id", .str genId)] = false := by
    intro d hd
    rw [← Bool.not_eq_true]
    intro hmq
    obtain ⟨w, hw, hpe⟩ := (matchesQuery_single _ _ _).mp hmq
    rw [(pyEq_str_iff w genId).mp hpe] at hw
    exact hfr d hd hw
  have hfilter : (c.docs ++ [Document.new data genId now]).filter
      (fun d => Collection.matchesQuery d [("_id", .str genId)]) =
      [Document.new data genId now] := by
    rw [List.filter_append, List.filter_eq_nil_iff.mpr
      (fun d hd hmq => by rw [hmatchold d hd] at hmq; exact absurd hmq (by simp))]
    simp [List.filter, hmatchnew]
  refine ⟨rfl, ?_, hid, ?_, Document.new_updated data genId now,
    Document.new_other data genId now, ?_⟩
  · unfold Collection.insert
    dsimp only
    unfold Collection.find
    rw [if_neg (by simp)]
    have hix : aGet (IndexManager.add_to_indices c.indices (.str genId)
        (Document.new data genId now)) "_id" =
        (aGet c.indices "_id").map (fun m => Index.add m (.str genId) (.str genId)) := by
      rw [isIndexed_add_to_indices, hid]
    cases hold : aGet c.indices "_id" with
    | none =>
        have hnotidx : IndexManager.isIndexed (IndexManager.add_to_indices c.indices
            (.str genId) (Document.new data genId now)) "_id" = false := by
          unfold IndexManager.isIndexed
          rw [hix, hold]
          rfl
        rw [List.find?_cons_of_neg _ (by rw [hnotidx]; simp), List.find?_nil]
        exact hfilter
    | some m =>
        have hio := hinv.idx_ok ("_id", m) (aGet_mem _ _ _ hold)
        have hbucket : bucketOf m genId = [] := by
          rw [List.eq_nil_iff_forall_not_mem]
          intro x hx
          rcases (hio genId x).mp hx with ⟨e, he, hide, w, hw, hn⟩
          rw [hide] at hw
          injection hw with hw
          obtain ⟨s, _, hsid⟩ := hinv.docs_ok.ids e he
          rw [hsid] at hide
          injection hide with hide
          rw [← hw, ← hide] at hn
          rw [show Index.get_indexable_value (.str s) = s from rfl] at hn
          apply hfr e he
          rw [hsid, hn]
        have hadd : Index.add m (.str genId) (.str genId) =
            aSet m genId (bucketOf m genId ++ [.str genId]) := by
          rw [Index.add_eq m _ _ (by simp),
            show Index.get_indexable_value (.str genId) = genId from rfl]
          unfold Index.addCore
          dsimp only
          rw [bucketMem_false_of_not_mem _ _ (by rw [hbucket]; simp)]
          rfl
        have hisidx : IndexManager.isIndexed (IndexManager.add_to_indices c.indices
            (.str genId) (Document.new data genId now)) "_id" = true := by
          unfold IndexManager.isIndexed
          rw [hix, hold]
          rfl
        rw [List.find?_cons_of_pos _ (by exact hisidx)]
        have hids2 : IndexManager.find_by_index (IndexManager.add_to_indices c.indices
            (.str genId) (Document.new data genId now)) "_id" (.str genId) =
            [Value.str genId] := by
          unfold IndexManager.find_by_index
          rw [hix, hold]
          simp only [Option.map_some']
          unfold Index.find_doc_ids
          rw [show Index.get_indexable_value (.str genId) = genId from rfl, hadd,
            bucketOf_aSet, if_pos rfl, hbucket]
          rfl
        simp only [hids2, List.isEmpty_cons, Bool.false_eq_true, if_false]
        rw [show (c.docs ++ [Document.new data genId now]).filter
            (fun doc => bucketMem [Value.str genId] (pyGet doc "_id") &&
              Collection.matchesQuery doc [("_id", .str genId)]) =
            (c.docs ++ [Document.new data genId now]).filter
            (fun doc => Collection.matchesQuery doc [("_id", .str genId)]) from ?_, hfilter]
        apply List.filter_congr
        intro d hd
        by_cases hmq : Collection.matchesQuery d [("_id", .str genId)] = true
        · rw [hmq, Bool.and_true]
          obtain ⟨w, hw, hpe⟩ := (matchesQuery_single _ _ _).mp hmq
          rw [(pyEq_str_iff w genId).mp hpe] at hw
          rw [pyGet_eq_of_aGet d _ _ hw]
          rw [(bucketMem_str _ _)]
          simp
        · have hmq' : Collection.matchesQuery d [("_id", .str genId)] = false := by
            rw [← Bool.not_eq_true]; exact hmq
          rw [hmq', Bool.and_false]
  · rw [hasKey_true_iff]
    rw [Document.new_created data genId now]
    cases aGet data "_created_at" with
    | none => exact ⟨.str now, rfl⟩
    | some w => exact ⟨w, rfl⟩
  · intro kv hkv
    rcases Document.new_mem data genId now kv hkv with h | h | h | h
    · exact Or.inl h
    · right; left; rw [h]
    · right; right; left; rw [h]
    · right; right; right; rw [h]

/-- Witness for the amended C1 round trip at a concrete input. -/
theorem C1_witness :
    (Collection.empty.insert [("a", .int 1)] "g1" "t1").2 = "g1" ∧
    (Collection.empty.insert [("a", .int 1)] "g1" "t1").1.find [("_id", .str "g1")] =
      [Document.new [("a", .int 1)] "g1" "t1"] := by
  have h := C1_roundtrip Collection.empty [("a", .int 1)] "g1" "t1" Reach.empty
    (by decide) (by decide) (by decide)
  exact ⟨h.1, h.2.1⟩

/-- Witness for the amended C2 index transparency at a concrete state. -/
theorem C2_witness :
    ((Collection.empty.create_index "a").insert [("a", .int 5)] "g1" "t1").1.find
      [("a", .int 5)] =
    (((Collection.empty.create_index "a").insert [("a", .int 5)] "g1" "t1").1.docs.filter
      (fun d => Collection.matchesQuery d [("a", .int 5)])) := by
  apply C2_index_transparency _
    (Reach.insert [("a", .int 5)] "g1" "t1" (Reach.create_index "a" Reach.empty)
      (by decide) (by decide) (by decide))
    "a" (.int 5) [("5", [Value.str "g1"])] (by decide)
  intro d hd w hw hpe
  rw [show (((Collection.empty.create_index "a").insert
      [("a", .int 5)] "g1" "t1").1).docs =
    [[("a", Value.int 5), ("_id", Value.str "g1"), ("_created_at", Value.str "t1"),
      ("_updated_at", Value.str "t1")]] from rfl, List.mem_singleton] at hd
  subst hd
  rw [show aGet [("a", Value.int 5), ("_id", Value.str "g1"),
      ("_created_at", Value.str "t1"), ("_updated_at", Value.str "t1")] "a" =
    some (Value.int 5) from rfl] at hw
  injection hw with hw
  subst hw
  rfl

/-- Witness for the amended C3 index-state invariant at a concrete state. -/
theorem C3_witness :
    Value.str "g1" ∈ bucketOf [("5", [Value.str "g1"])]
      (Index.get_indexable_value (.int 5)) ∧
    ∀ k, Value.str "g1" ∈ bucketOf [("5", [Value.str "g1"])] k →
      k = Index.get_indexable_value (.int 5) := by
  have h := C3_index_state_invariant _
    (Reach.insert [("a", .int 5)] "g1" "t1" (Reach.create_index "a" Reach.empty)
      (by decide) (by decide) (by decide))
    ("a", [("5", [Value.str "g1"])]) (by decide)
    [("a", Value.int 5), ("_id", Value.str "g1"), ("_created_at", Value.str "t1"),
      ("_updated_at", Value.str "t1")] (by decide)
  obtain ⟨s, hsid, hmem, huni⟩ := h.1 (.int 5) (by decide)
  have hs : s = "g1" := by
    rw [show aGet [("a", Value.int 5), ("_id", Value.str "g1"),
        ("_created_at", Value.str "t1"), ("_updated_at", Value.str "t1")] "_id" =
      some (Value.str "g1") from rfl] at hsid
    injection hsid with h2
    injection h2 with h3
    exact h3.symm
  subst hs
  exact ⟨hmem, huni⟩

/-- Witness for the amended C4 merge semantics at a concrete input. -/
theorem C4_witness :
    aGet (Collection.applyUpdate
      [("a", Value.int 1), ("b", Value.int 2), ("_id", Value.str "g1"),
        ("_created_at", Value.str "t1"), ("_updated_at", Value.str "t1")]
      [("a", Value.int 9)] "t2") "b" = some (Value.int 2) ∧
    aGet (Collection.applyUpdate
      [("a", Value.int 1), ("b", Value.int 2), ("_id", Value.str "g1"),
        ("_created_at", Value.str "t1"), ("_updated_at", Value.str "t1")]
      [("a", Value.int 9)] "t2") "_id" = some (Value.str "g1") := by
  have h := C4_operatorless_update_merges
    (Collection.empty.insert [("a", .int 1), ("b", .int 2)] "g1" "t1").1
    [("a", .int 1)] [("a", .int 9)] "t2"
    (by decide) (by decide) (by decide)
    (by
      intro d hd
      rw [show ((Collection.empty.insert [("a", .int 1), ("b", .int 2)] "g1" "t1").1).docs =
        [[("a", Value.int 1), ("b", Value.int 2), ("_id", Value.str "g1"),
          ("_created_at", Value.str "t1"), ("_updated_at", Value.str "t1")]] from rfl,
        List.mem_singleton] at hd
      subst hd
      exact ⟨Value.str "g1", rfl⟩)
  have h2 := h.2
    [("a", Value.int 1), ("b", Value.int 2), ("_id", Value.str "g1"),
      ("_created_at", Value.str "t1"), ("_updated_at", Value.str "t1")]
    (by
      rw [show ((Collection.empty.insert [("a", .int 1), ("b", .int 2)] "g1" "t1").1).docs =
        [[("a", Value.int 1), ("b", Value.int 2), ("_id", Value.str "g1"),
          ("_created_at", Value.str "t1"), ("_updated_at", Value.str "t1")]] from rfl]
      exact List.mem_singleton.mpr rfl)
    (by decide)
  constructor
  · rw [h2.2.2 "b" (by decide) (by decide)]
    rfl
  · rw [h2.1]
    rfl

/-- Witness for the amended C6 id uniqueness at a concrete state whose
history includes a null field value, an empty timestamp and an
operator-less update — all outside the `Reach` envelope but inside the
uniqueness claim's own provisos. -/
theorem C6_witness :
    ((((Collection.empty.insert [("a", .null)] "g1" "t1").1.insert
        [("a", .int 2)] "g2" "").1).update [("a", .null)] [("b", .str "x")]
        "t3").1.docs.Pairwise
      (fun a b => aGet a "_id" ≠ aGet b "_id") :=
  C6_unique_ids _
    (ReachU.update [("a", .null)] [("b", .str "x")] "t3"
      (ReachU.insert [("a", .int 2)] "g2" ""
        (ReachU.insert [("a", .null)] "g1" "t1" ReachU.empty (by decide) (by decide))
        (by decide) (by decide))
      (by decide))

/-- Witness for the amended C7 rebuild equivalence at a concrete state. -/
theorem C7_witness :
    Value.str "g1" ∈ Index.find_doc_ids [("5", [Value.str "g1"])] (.int 5) ↔
      Value.str "g1" ∈ Index.find_doc_ids
        (Index.build "a"
          (((Collection.empty.create_index "a").insert [("a", .int 5)] "g1" "t1").1).docs)
        (.int 5) :=
  C7_rebuild_equivalence _
    (Reach.insert [("a", .int 5)] "g1" "t1" (Reach.create_index "a" Reach.empty)
      (by decide) (by decide) (by decide))
    ("a", [("5", [Value.str "g1"])]) (by decide) (.int 5) (.str "g1")

/-- Witness for the C10 no-op delete at a concrete state. -/
theorem C10_witness :
    Collection.empty.delete [] = (Collection.empty, 0) ∧
    Collection.empty.find [] = Collection.empty.docs :=
  C10_empty_query_delete_noop Collection.empty
